import Mathlib

/-!
# Donor selection for predictive mean matching: `matchindex_dev`

A shallow embedding of `src/dev-matchindex.cpp`.

Modelling conventions.

* An `arma::vec` is a `List ℚ` and an `arma::uvec` a `List ℕ`.  Comparisons
  of doubles are exact; the two subtractions of the distance test
  `val - yuse(l) < yuse(r) - val` are rounded to double by `fl`.  The inputs
  are finite numbers (no infinity, no NaN).
* `int ex = cond(i)` is a 32-bit conversion, see `to_int`.
* Element access is bounds checked, as in Armadillo's default build: an
  access outside the vector aborts the call.  The embedding returns `none`
  for an aborted call and `some result` for a call that returns.
* The two calls of R's `sample` are the fields of `Sample`; a run of the
  program is fixed by the values they return.
* `arma::sort_index`, `arma::find` and `std::lower_bound` are library
  routines; they are modelled by `sort_index`, `find` and `lower_bound`.
* The counter `count` of the three `while` loops is only compared with `hi`;
  the loops recurse on the number `hi - count` of steps still allowed.
-/

namespace MatchIndex

/-! ## Library routines -/

/-- The host's `sample`: `shuffle n` is the call `sample(n)` and `draw k n`
is the call `sample(k, n, replace = TRUE)`. -/
structure Sample where
  shuffle : ℕ → List ℕ
  draw : ℤ → ℕ → List ℕ

/-- The integer part of a real number: the fractional part is discarded
(truncation toward zero). -/
def trunc (x : ℚ) : ℤ := Int.tdiv x.num x.den

/-- Conversion of a double to the 32-bit `int`, as in `int ex = cond(i)`: the
integer part when it lies in `[-2^31, 2^31 - 1]`.  Outside that range the
conversion is undefined in C++; the value taken here is the one the x86-64
conversion instruction delivers, `INT_MIN`. -/
def to_int (x : ℚ) : ℤ :=
  if -2147483648 ≤ trunc x ∧ trunc x ≤ 2147483647 then trunc x else -2147483648

/-- The position of the leading bit of `n`, found in at most `fuel` halvings. -/
def log2_fuel : ℕ → ℕ → ℕ
  | 0, _ => 0
  | fuel + 1, n => if 2 ≤ n then log2_fuel fuel (n / 2) + 1 else 0

/-- `2 ^ e` for an integer exponent `e`. -/
def pow2 (e : ℤ) : ℚ :=
  if 0 ≤ e then ((2 ^ e.toNat : ℕ) : ℚ) else 1 / ((2 ^ (-e).toNat : ℕ) : ℚ)

/-- The exponent `e` with `2 ^ e <= |x| < 2 ^ (e + 1)` of a non-zero `x`. -/
def binade (x : ℚ) : ℤ :=
  if pow2 ((log2_fuel x.num.natAbs x.num.natAbs : ℤ) - (log2_fuel x.den x.den : ℤ)) ≤ |x| then
    (log2_fuel x.num.natAbs x.num.natAbs : ℤ) - (log2_fuel x.den x.den : ℤ)
  else (log2_fuel x.num.natAbs x.num.natAbs : ℤ) - (log2_fuel x.den x.den : ℤ) - 1

/-- The nearest integer, a tie going to the even one. -/
def round_even (q : ℚ) : ℤ :=
  if q - ⌊q⌋ < 1 / 2 then ⌊q⌋
  else if 1 / 2 < q - ⌊q⌋ then ⌊q⌋ + 1
  else if ⌊q⌋ % 2 = 0 then ⌊q⌋ else ⌊q⌋ + 1

/-- The nearest number with a significand of 53 bits and an exponent of any
size, ties to even. -/
def round53 (x : ℚ) : ℚ :=
  if x = 0 then 0 else (round_even (x / pow2 (binade x - 52)) : ℚ) * pow2 (binade x - 52)

/-- Rounding to double, the result of a subtraction of two doubles being `fl`
of the exact difference: the nearest number with a significand of 53 bits, ties
to even; a result of magnitude `2 ^ 1024` or more overflows to an infinity,
which is represented by `2 ^ 1024` with its sign (above every finite
double).  A difference of two doubles below the normal range is exact in IEEE
arithmetic and is left unchanged here. -/
def fl (x : ℚ) : ℚ := max (-pow2 1024) (min (pow2 1024) (round53 x))

/-- Element access `v(i)` with a signed index `i`; `none` when `i` is outside
the vector. -/
def at_int {α : Type} (v : List α) (i : ℤ) : Option α :=
  if 0 ≤ i then v[i.toNat]? else none

/-- Sub-vector `v(indices)`; `none` when some index is outside the vector. -/
def elem {α : Type} (v : List α) : List ℕ → Option (List α)
  | [] => some []
  | j :: js =>
    match v[j]?, elem v js with
    | some x, some xs => some (x :: xs)
    | _, _ => none

/-- Positions of the entries of `mask` that are set, counted from `start`. -/
def find_from (start : ℕ) : List Bool → List ℕ
  | [] => []
  | b :: bs =>
    if b then start :: find_from (start + 1) bs else find_from (start + 1) bs

/-- `arma::find(mask)`: the positions of the non-zero entries, ascending. -/
def find (mask : List Bool) : List ℕ := find_from 0 mask

/-- `arma::sort_index(v)`: the positions of `v` in ascending order of value
(positions of equal values stay in their relative order). -/
def sort_index (v : List ℚ) : List ℕ :=
  (List.range v.length).insertionSort (fun a b => v.getD a 0 ≤ v.getD b 0)

/-- `std::lower_bound(v.begin(), v.end(), val) - v.begin()` on an ascending
vector: the first position whose value is not below `val`. -/
def lower_bound (v : List ℚ) (val : ℚ) : ℕ :=
  (v.takeWhile (fun y => decide (y < val))).length

/-! ## The program -/

/-- Restriction `1 <= k <= nobs` (lines 109-110): first `if (k < 1) k = 1`,
then `if (k > nobs) k = nobs`. -/
def clamp_k (k nobs : ℤ) : ℤ :=
  let k1 := if k < 1 then 1 else k
  if k1 > nobs then nobs else k1

/-- Variables of the search for one target after a loop: the recorded donor
index `idx(i)`, the cursors `l` and `r`, and `todo = hi - count`. -/
structure Search where
  idx : ℕ
  l : ℤ
  r : ℕ
  todo : ℕ
deriving DecidableEq

/-- First loop, `while (count < hi && l >= 0 && r < nuse)`: take the left
candidate when its computed distance `val - yuse(l)` is strictly below the
computed distance `yuse(r) - val`, the right one otherwise.  The first
argument is `hi - count`. -/
def expand_both (yuse : List ℚ) (iduse : List ℕ) (val : ℚ) :
    ℕ → ℕ → ℤ → ℕ → Option Search
  | 0, idx, l, r => some ⟨idx, l, r, 0⟩
  | n + 1, idx, l, r =>
    if 0 ≤ l ∧ r < yuse.length then
      match at_int yuse l, yuse[r]? with
      | some yl, some yr =>
        if fl (val - yl) < fl (yr - val) then
          match at_int iduse l with
          | some j => expand_both yuse iduse val n j (l - 1) r
          | none => none
        else
          match iduse[r]? with
          | some j => expand_both yuse iduse val n j l (r + 1)
          | none => none
      | _, _ => none
    else some ⟨idx, l, r, n + 1⟩

/-- Second loop, `while (count < hi && l >= 0)`: the right side is exhausted,
take left elements. -/
def expand_left (iduse : List ℕ) : ℕ → ℕ → ℤ → ℕ → Option Search
  | 0, idx, l, r => some ⟨idx, l, r, 0⟩
  | n + 1, idx, l, r =>
    if 0 ≤ l then
      match at_int iduse l with
      | some j => expand_left iduse n j (l - 1) r
      | none => none
    else some ⟨idx, l, r, n + 1⟩

/-- Third loop, `while (count < hi && r < nuse)`: the left side is exhausted,
take right elements. -/
def expand_right (nuse : ℕ) (iduse : List ℕ) : ℕ → ℕ → ℤ → ℕ → Option Search
  | 0, idx, l, r => some ⟨idx, l, r, 0⟩
  | n + 1, idx, l, r =>
    if r < nuse then
      match iduse[r]? with
      | some j => expand_right nuse iduse n j l (r + 1)
      | none => none
    else some ⟨idx, l, r, n + 1⟩

/-- The three loops of lines 130-149 in sequence, from the cursors `l`, `r`
with `hi` steps allowed and `idx(i) = 0`. -/
def expand (yuse : List ℚ) (iduse : List ℕ) (val : ℚ) (hi : ℕ) (l : ℤ) (r : ℕ) :
    Option Search :=
  match expand_both yuse iduse val hi 0 l r with
  | none => none
  | some s1 =>
    match expand_left iduse s1.todo s1.idx s1.l s1.r with
    | none => none
    | some s2 => expand_right yuse.length iduse s2.todo s2.idx s2.l s2.r

/-- The usable subset for one exclusion value (lines 118-120):
`yuse = ysort(find(ytrue(id) != ex))` and `iduse = id(find(ytrue(id) != ex))`. -/
def usable (ysort : List ℚ) (id : List ℕ) (ytrue : List ℚ) (c : ℚ) :
    Option (List ℚ × List ℕ) :=
  let ex : ℤ := to_int c
  match elem ytrue id with
  | none => none
  | some yt =>
    let keep := find (yt.map (fun y => decide (y ≠ (ex : ℚ))))
    match elem ysort keep, elem id keep with
    | some yuse, some iduse => some (yuse, iduse)
    | _, _ => none

/-- Body of the loop over the targets (lines 117-149) for one target with
predicted value `val`, exclusion value `c` and rank `hi`: the value left in
`idx(i)`. -/
def match_one (ysort : List ℚ) (id : List ℕ) (ytrue : List ℚ) (val c : ℚ) (hi : ℕ) :
    Option ℕ :=
  match usable ysort id ytrue c with
  | none => none
  | some (yuse, iduse) =>
    let r := lower_bound yuse val
    let l : ℤ := (r : ℤ) - 1
    match expand yuse iduse val hi l r with
    | none => none
    | some s => some s.idx

/-- The loop `for (int i = 0; i < nmis; i++)` over `yhatmis`, reading
`cond(i)` and `h(i)` alongside; entries of `cond` and `h` beyond `nmis` are
never read, a missing one aborts. -/
def targets (ysort : List ℚ) (id : List ℕ) (ytrue : List ℚ) :
    List ℚ → List ℚ → List ℕ → Option (List ℕ)
  | [], _, _ => some []
  | val :: vals, c :: cs, hi :: his =>
    match match_one ysort id ytrue val c hi, targets ysort id ytrue vals cs his with
    | some x, some xs => some (x :: xs)
    | _, _ => none
  | _ :: _, _, _ => none

/-- The exported function `matchindex_dev(yhatobs, yhatmis, k, cond, ytrue)`.
The result is `idx + 1`, or `none` when the call aborts. -/
def matchindex_dev (sample : Sample) (yhatobs yhatmis : List ℚ) (k : ℤ)
    (cond ytrue : List ℚ) : Option (List ℕ) :=
  let nobs := yhatobs.length
  let nmis := yhatmis.length
  let ishuf := (sample.shuffle nobs).map (fun j => j - 1)
  match elem yhatobs ishuf with
  | none => none
  | some yshuf =>
    let id := sort_index yshuf
    match elem yshuf id with
    | none => none
    | some ysort =>
      let h := sample.draw (clamp_k k nobs) nmis
      match targets ysort id ytrue yhatmis cond h with
      | none => none
      | some idx => some (idx.map (fun j => j + 1))

/-! ## Notions used in the statements -/

/-- A `sample` that returns the shuffle `p` and the ranks `h` whatever it is
asked. -/
def fixed_sample (p h : List ℕ) : Sample := ⟨fun _ => p, fun _ _ => h⟩

/-- The value of `sample(n)` is a shuffle of `1..n`. -/
def IsShuffle (p : List ℕ) (n : ℕ) : Prop := p.Perm (List.range' 1 n)

instance decidableIsShuffle (p : List ℕ) (n : ℕ) : Decidable (IsShuffle p n) := by
  unfold IsShuffle
  infer_instance

/-- The caller's 1-based read `v[j]` of a donor array at a returned index. -/
def donor_at (v : List ℚ) (j : ℕ) : Option ℚ := if 1 ≤ j then v[j - 1]? else none

/-- The donors (1-based) that are eligible for the exclusion value `c`: those
whose true value differs from `c`. -/
def eligible_donors (ytrue : List ℚ) (c : ℚ) : List ℕ :=
  (List.range' 1 ytrue.length).filter (fun j => decide (donor_at ytrue j ≠ some c))

/-- The number of eligible donors whose predicted value is strictly closer to
`val` than the predicted value of donor `j`. -/
def closer_count (yhatobs ytrue : List ℚ) (val c : ℚ) (j : ℕ) : ℕ :=
  ((eligible_donors ytrue c).filter (fun i =>
    match donor_at yhatobs i, donor_at yhatobs j with
    | some y, some yj => decide (|y - val| < |yj - val|)
    | _, _ => false)).length

/-! ## Notions used for the search and the filter -/

/-- The three loops of lines 130-149 in sequence from an arbitrary state of
`idx(i)`; `expand` is the case `idx(i) = 0`. -/
def expand_from (yuse : List ℚ) (iduse : List ℕ) (val : ℚ) (n idx : ℕ) (l : ℤ) (r : ℕ) :
    Option Search :=
  match expand_both yuse iduse val n idx l r with
  | none => none
  | some s1 =>
    match expand_left iduse s1.todo s1.idx s1.l s1.r with
    | none => none
    | some s2 => expand_right yuse.length iduse s2.todo s2.idx s2.l s2.r

/-- The recorded index and the two cursors. -/
structure Cursor where
  idx : ℕ
  l : ℤ
  r : ℕ
deriving DecidableEq

/-- One iteration of whichever of the three loops is active at the cursors:
both sides open (first loop), only the left side open (second loop), only the
right side open (third loop); nothing changes when both sides are exhausted. -/
def advance (yuse : List ℚ) (iduse : List ℕ) (val : ℚ) (c : Cursor) : Cursor :=
  if 0 ≤ c.l ∧ c.r < yuse.length then
    if fl (val - yuse.getD c.l.toNat 0) < fl (yuse.getD c.r 0 - val) then
      ⟨iduse.getD c.l.toNat 0, c.l - 1, c.r⟩
    else ⟨iduse.getD c.r 0, c.l, c.r + 1⟩
  else if 0 ≤ c.l then ⟨iduse.getD c.l.toNat 0, c.l - 1, c.r⟩
  else if c.r < yuse.length then ⟨iduse.getD c.r 0, c.l, c.r + 1⟩
  else c

/-- The number of positions of a vector of length `n` outside the cursors. -/
def unvisited (n : ℕ) (l : ℤ) (r : ℕ) : ℕ := (l + 1).toNat + (n - r)

/-- Absolute distance from the target value `val` to the candidate at
position `q` of the filtered vector. -/
def dist_to (yuse : List ℚ) (val : ℚ) (q : ℕ) : ℚ := |yuse.getD q 0 - val|

/-- The distance as the program computes it: the absolute difference rounded
to double. -/
def computed_dist (yuse : List ℚ) (val : ℚ) (q : ℕ) : ℚ := fl |yuse.getD q 0 - val|

/-- The number of positions of `yuse` whose computed distance to `val` is
strictly below that of position `p`. -/
def closer_computed (yuse : List ℚ) (val : ℚ) (p : ℕ) : ℕ :=
  ((List.range yuse.length).filter
    (fun q => decide (computed_dist yuse val q < computed_dist yuse val p))).length

/-- The number of positions of `yuse` whose computed distance to `val` is at
most that of position `p`. -/
def within_computed (yuse : List ℚ) (val : ℚ) (p : ℕ) : ℕ :=
  ((List.range yuse.length).filter
    (fun q => decide (computed_dist yuse val q ≤ computed_dist yuse val p))).length

/-- The number of positions of `yuse` strictly closer to `val` than position `p`. -/
def closer_positions (yuse : List ℚ) (val : ℚ) (p : ℕ) : ℕ :=
  ((List.range yuse.length).filter
    (fun q => decide (dist_to yuse val q < dist_to yuse val p))).length

/-- The number of positions of `yuse` at most as far from `val` as position `p`. -/
def within_positions (yuse : List ℚ) (val : ℚ) (p : ℕ) : ℕ :=
  ((List.range yuse.length).filter
    (fun q => decide (dist_to yuse val q ≤ dist_to yuse val p))).length

/-- State of the search between two steps: the positions strictly between the
cursors have been visited, the positions below `l` hold values under `val`, the
positions from `r` on hold values not under `val`, every visited position is at
most as far from `val` as every other one by computed distance, and the
recorded index belongs to the position visited last, which is the farthest
visited one and lies next to a cursor. -/
structure Swept (yuse : List ℚ) (iduse : List ℕ) (val : ℚ) (c : Cursor) : Prop where
  lo : -1 ≤ c.l
  lt : c.l < c.r
  hi : c.r ≤ yuse.length
  below : ∀ q : ℕ, (q : ℤ) ≤ c.l → yuse.getD q 0 < val
  above : ∀ q : ℕ, c.r ≤ q → q < yuse.length → val ≤ yuse.getD q 0
  near : ∀ v u : ℕ, c.l < v → v < c.r → u < yuse.length → ((u : ℤ) ≤ c.l ∨ c.r ≤ u) →
    computed_dist yuse val v ≤ computed_dist yuse val u
  last : c.l + 1 = c.r ∨ ∃ p : ℕ, ((p : ℤ) = c.l + 1 ∨ p + 1 = c.r) ∧ c.l < p ∧ p < c.r ∧
    iduse.getD p 0 = c.idx ∧ ∀ v : ℕ, c.l < v → v < c.r → computed_dist yuse val v ≤ computed_dist yuse val p

/-- Lines 101-105: the shuffle, the sort order `id = sort_index(yshuf)` and the
sorted values `ysort = yshuf(id)`; the value is `(id, ysort)`. -/
def sorted_donors (sample : Sample) (yhatobs : List ℚ) : Option (List ℕ × List ℚ) :=
  let nobs := yhatobs.length
  let ishuf := (sample.shuffle nobs).map (fun j => j - 1)
  match elem yhatobs ishuf with
  | none => none
  | some yshuf =>
    let id := sort_index yshuf
    match elem yshuf id with
    | none => none
    | some ysort => some (id, ysort)

/-- The entries of `v` at the set positions of `mask`, in order. -/
def masked {α : Type} : List α → List Bool → List α
  | x :: xs, b :: bs => if b then x :: masked xs bs else masked xs bs
  | _, _ => []

/-! ## Rounding to double is monotone -/

theorem log2_fuel_spec : ∀ (fuel n : ℕ), 1 ≤ n → n ≤ fuel + 1 →
    2 ^ log2_fuel fuel n ≤ n ∧ n < 2 ^ (log2_fuel fuel n + 1) := by
  intro fuel
  induction fuel with
  | zero =>
    intro n h1 h2
    have : n = 1 := by omega
    subst this
    simp [log2_fuel]
  | succ fuel ih =>
    intro n h1 h2
    unfold log2_fuel
    by_cases h : 2 ≤ n
    · rw [if_pos h]
      obtain ⟨a, b⟩ := ih (n / 2) (by omega) (by omega)
      rw [pow_succ, pow_succ]
      rw [pow_succ] at b
      constructor <;> omega
    · rw [if_neg h]
      have : n = 1 := by omega
      subst this
      simp

theorem pow2_eq (e : ℤ) : pow2 e = (2 : ℚ) ^ e := by
  unfold pow2
  by_cases h : 0 ≤ e
  · rw [if_pos h]
    obtain ⟨n, rfl⟩ := Int.eq_ofNat_of_zero_le h
    simp
  · rw [if_neg h]
    obtain ⟨n, rfl⟩ := Int.exists_eq_neg_ofNat (by omega : e ≤ 0)
    simp [zpow_neg]

theorem binade_spec (x : ℚ) (hx : 0 < x) :
    (2 : ℚ) ^ binade x ≤ x ∧ x < (2 : ℚ) ^ (binade x + 1) := by
  have hnum : 0 < x.num := Rat.num_pos.mpr hx
  have hden : 0 < x.den := x.den_pos
  obtain ⟨n, hn⟩ := Int.eq_ofNat_of_zero_le (le_of_lt hnum)
  have hn1 : 1 ≤ n := by omega
  have hnat : x.num.natAbs = n := by rw [hn]; rfl
  obtain ⟨a1, a2⟩ := log2_fuel_spec n n hn1 (by omega)
  obtain ⟨b1, b2⟩ := log2_fuel_spec x.den x.den hden (by omega)
  have hxeq : x = (n : ℚ) / (x.den : ℚ) := by
    conv_lhs => rw [← Rat.num_div_den x, hn]
    simp only [Int.cast_natCast]
  have hdq : (0 : ℚ) < x.den := by exact_mod_cast hden
  have a1q : (2 : ℚ) ^ (log2_fuel n n) ≤ n := by exact_mod_cast a1
  have a2q : (n : ℚ) < (2 : ℚ) ^ (log2_fuel n n + 1) := by exact_mod_cast a2
  have b1q : (2 : ℚ) ^ (log2_fuel x.den x.den) ≤ x.den := by exact_mod_cast b1
  have b2q : (x.den : ℚ) < (2 : ℚ) ^ (log2_fuel x.den x.den + 1) := by exact_mod_cast b2
  have h2 : (0 : ℚ) < 2 := by norm_num
  have eA : (2 : ℚ) ^ ((log2_fuel n n : ℤ) - (log2_fuel x.den x.den : ℤ) + 1) =
      (2 : ℚ) ^ (log2_fuel n n + 1) / (2 : ℚ) ^ (log2_fuel x.den x.den) := by
    rw [show ((log2_fuel n n : ℤ) - (log2_fuel x.den x.den : ℤ) + 1) =
      ((log2_fuel n n + 1 : ℕ) : ℤ) - ((log2_fuel x.den x.den : ℕ) : ℤ) by push_cast; ring]
    rw [zpow_sub₀ (ne_of_gt h2), zpow_natCast, zpow_natCast]
  have eB : (2 : ℚ) ^ ((log2_fuel n n : ℤ) - (log2_fuel x.den x.den : ℤ) - 1) =
      (2 : ℚ) ^ (log2_fuel n n) / (2 : ℚ) ^ (log2_fuel x.den x.den + 1) := by
    rw [show ((log2_fuel n n : ℤ) - (log2_fuel x.den x.den : ℤ) - 1) =
      ((log2_fuel n n : ℕ) : ℤ) - ((log2_fuel x.den x.den + 1 : ℕ) : ℤ) by push_cast; ring]
    rw [zpow_sub₀ (ne_of_gt h2), zpow_natCast, zpow_natCast]
  have upper : x < (2 : ℚ) ^ ((log2_fuel n n : ℤ) - (log2_fuel x.den x.den : ℤ) + 1) := by
    rw [eA]
    refine lt_of_eq_of_lt hxeq ?_
    have hp : (0 : ℚ) < (2 : ℚ) ^ (log2_fuel x.den x.den) := by positivity
    rw [div_lt_div_iff₀ hdq hp]
    calc (n : ℚ) * 2 ^ log2_fuel x.den x.den
        ≤ n * x.den := by apply mul_le_mul_of_nonneg_left b1q; positivity
      _ < 2 ^ (log2_fuel n n + 1) * x.den := by
          apply mul_lt_mul_of_pos_right a2q hdq
  have lower : (2 : ℚ) ^ ((log2_fuel n n : ℤ) - (log2_fuel x.den x.den : ℤ) - 1) ≤ x := by
    rw [eB]
    refine le_of_le_of_eq ?_ hxeq.symm
    have hp : (0 : ℚ) < (2 : ℚ) ^ (log2_fuel x.den x.den + 1) := by positivity
    rw [div_le_div_iff₀ hp hdq]
    calc (2 : ℚ) ^ log2_fuel n n * x.den
        ≤ n * x.den := by apply mul_le_mul_of_nonneg_right a1q (le_of_lt hdq)
      _ ≤ n * 2 ^ (log2_fuel x.den x.den + 1) := by
          apply mul_le_mul_of_nonneg_left (le_of_lt b2q); positivity
  unfold binade
  rw [hnat, abs_of_pos hx, pow2_eq]
  by_cases hc : (2 : ℚ) ^ ((log2_fuel n n : ℤ) - (log2_fuel x.den x.den : ℤ)) ≤ x
  · rw [if_pos hc]
    exact ⟨hc, upper⟩
  · rw [if_neg hc]
    refine ⟨lower, ?_⟩
    rw [sub_add_cancel]
    exact not_le.mp hc

theorem round_even_bounds (q : ℚ) : ⌊q⌋ ≤ round_even q ∧ round_even q ≤ ⌊q⌋ + 1 := by
  unfold round_even
  split
  · omega
  · split
    · omega
    · split <;> omega

theorem round_even_up (q : ℚ) (h : round_even q = ⌊q⌋ + 1) :
    1 / 2 < q - ⌊q⌋ ∨ (q - ⌊q⌋ = 1 / 2 ∧ ¬ ⌊q⌋ % 2 = 0) := by
  unfold round_even at h
  split at h
  · omega
  · rename_i h1
    split at h
    · rename_i h2; exact Or.inl h2
    · rename_i h2
      split at h
      · omega
      · rename_i h3
        exact Or.inr ⟨le_antisymm (not_lt.mp h2) (not_lt.mp h1), h3⟩

theorem round_even_mono (q q' : ℚ) (h : q ≤ q') : round_even q ≤ round_even q' := by
  have hf : ⌊q⌋ ≤ ⌊q'⌋ := Int.floor_mono h
  obtain ⟨a1, a2⟩ := round_even_bounds q
  obtain ⟨b1, b2⟩ := round_even_bounds q'
  rcases lt_or_eq_of_le hf with hlt | heq
  · omega
  · by_cases hup : round_even q = ⌊q⌋ + 1
    · have hq := round_even_up q hup
      have : round_even q' = ⌊q'⌋ + 1 := by
        unfold round_even
        rw [← heq]
        rcases hq with h1 | ⟨h1, h2⟩
        · have h3 : 1 / 2 < q' - ⌊q⌋ := by linarith
          rw [if_neg (by linarith), if_pos h3]
        · by_cases h3 : 1 / 2 < q' - ⌊q⌋
          · rw [if_neg (by linarith), if_pos h3]
          · rw [if_neg (by linarith), if_neg h3, if_neg h2]
      omega
    · omega

theorem round_even_le_int (q : ℚ) (N : ℤ) (h : q ≤ N) : round_even q ≤ N := by
  obtain ⟨-, a2⟩ := round_even_bounds q
  rcases lt_or_eq_of_le h with hlt | heq
  · have : ⌊q⌋ < N := Int.floor_lt.mpr hlt
    omega
  · subst heq
    unfold round_even
    simp

theorem int_le_round_even (q : ℚ) (N : ℤ) (h : (N : ℚ) ≤ q) : N ≤ round_even q := by
  obtain ⟨a1, -⟩ := round_even_bounds q
  have : N ≤ ⌊q⌋ := Int.le_floor.mpr h
  omega

theorem round53_nonneg (x : ℚ) (hx : 0 ≤ x) : 0 ≤ round53 x := by
  unfold round53
  split
  · exact le_refl _
  · rw [pow2_eq]
    have hp : (0 : ℚ) < (2 : ℚ) ^ (binade x - 52) := by positivity
    have : (0 : ℤ) ≤ round_even (x / (2 : ℚ) ^ (binade x - 52)) :=
      int_le_round_even _ 0 (by simpa using div_nonneg hx (le_of_lt hp))
    have hq : (0 : ℚ) ≤ (round_even (x / (2 : ℚ) ^ (binade x - 52)) : ℚ) := by exact_mod_cast this
    exact mul_nonneg hq (le_of_lt hp)

theorem round53_bounds (x : ℚ) (hx : 0 < x) :
    (2 : ℚ) ^ binade x ≤ round53 x ∧ round53 x ≤ (2 : ℚ) ^ (binade x + 1) := by
  obtain ⟨b1, b2⟩ := binade_spec x hx
  have h2 : (2 : ℚ) ≠ 0 := by norm_num
  have hp : (0 : ℚ) < (2 : ℚ) ^ (binade x - 52) := by positivity
  have h52 : (2 : ℚ) ^ (52 : ℤ) = 4503599627370496 := by norm_num
  have e1 : (2 : ℚ) ^ binade x = ((2 ^ 52 : ℤ) : ℚ) * (2 : ℚ) ^ (binade x - 52) := by
    rw [zpow_sub₀ h2, h52]
    push_cast
    field_simp
  have e2 : (2 : ℚ) ^ (binade x + 1) = ((2 ^ 53 : ℤ) : ℚ) * (2 : ℚ) ^ (binade x - 52) := by
    rw [zpow_sub₀ h2, zpow_add₀ h2, h52]
    push_cast
    field_simp
    ring
  unfold round53
  rw [if_neg (ne_of_gt hx), pow2_eq]
  constructor
  · rw [e1]
    apply mul_le_mul_of_nonneg_right _ (le_of_lt hp)
    have : ((2 ^ 52 : ℤ) : ℚ) ≤ x / (2 : ℚ) ^ (binade x - 52) := by
      rw [le_div_iff₀ hp, ← e1]; exact b1
    exact_mod_cast int_le_round_even _ _ this
  · rw [e2]
    apply mul_le_mul_of_nonneg_right _ (le_of_lt hp)
    have : x / (2 : ℚ) ^ (binade x - 52) ≤ ((2 ^ 53 : ℤ) : ℚ) := by
      rw [div_le_iff₀ hp, ← e2]; exact le_of_lt b2
    exact_mod_cast round_even_le_int _ _ this

theorem round53_mono (x y : ℚ) (hx : 0 ≤ x) (hxy : x ≤ y) : round53 x ≤ round53 y := by
  rcases eq_or_lt_of_le hx with h0 | hpos
  · subst h0
    have : round53 0 = 0 := by simp [round53]
    rw [this]
    exact round53_nonneg y hxy
  · have hy : 0 < y := lt_of_lt_of_le hpos hxy
    obtain ⟨a1, a2⟩ := binade_spec x hpos
    obtain ⟨b1, b2⟩ := binade_spec y hy
    have h2 : (1 : ℚ) < 2 := by norm_num
    have hle : binade x ≤ binade y := by
      have : (2 : ℚ) ^ binade x < (2 : ℚ) ^ (binade y + 1) :=
        lt_of_le_of_lt a1 (lt_of_le_of_lt hxy b2)
      have := (zpow_lt_zpow_iff_right₀ h2).mp this
      omega
    rcases lt_or_eq_of_le hle with hlt | heq
    · obtain ⟨-, c2⟩ := round53_bounds x hpos
      obtain ⟨d1, -⟩ := round53_bounds y hy
      have : (2 : ℚ) ^ (binade x + 1) ≤ (2 : ℚ) ^ binade y :=
        (zpow_le_zpow_iff_right₀ h2).mpr (by omega)
      linarith
    · unfold round53
      rw [if_neg (ne_of_gt hpos), if_neg (ne_of_gt hy), heq, pow2_eq]
      have hp : (0 : ℚ) < (2 : ℚ) ^ (binade y - 52) := by positivity
      apply mul_le_mul_of_nonneg_right _ (le_of_lt hp)
      have := round_even_mono (x / (2 : ℚ) ^ (binade y - 52)) (y / (2 : ℚ) ^ (binade y - 52))
        (div_le_div_of_nonneg_right hxy (le_of_lt hp))
      exact_mod_cast this

theorem round_even_neg (q : ℚ) : round_even (-q) = -round_even q := by
  have h1 : (⌊q⌋ : ℚ) ≤ q := Int.floor_le q
  have h2 : q < ⌊q⌋ + 1 := Int.lt_floor_add_one q
  by_cases hint : q = ⌊q⌋
  · have hf : ⌊-q⌋ = -⌊q⌋ := by
      rw [Int.floor_eq_iff]
      push_cast
      constructor <;> linarith
    unfold round_even
    rw [hf]
    have e1 : -q - ((-⌊q⌋ : ℤ) : ℚ) = 0 := by push_cast; linarith
    have e2 : q - (⌊q⌋ : ℚ) = 0 := by linarith
    rw [e1, e2]
    norm_num
  · have hlt : (⌊q⌋ : ℚ) < q := lt_of_le_of_ne h1 (fun h => hint h.symm)
    have hf : ⌊-q⌋ = -⌊q⌋ - 1 := by
      rw [Int.floor_eq_iff]
      push_cast
      constructor <;> linarith
    unfold round_even
    rw [hf]
    have e1 : -q - ((-⌊q⌋ - 1 : ℤ) : ℚ) = 1 - (q - ⌊q⌋) := by push_cast; ring
    rw [e1]
    split_ifs <;> first | omega | (exfalso; linarith)

theorem binade_neg (x : ℚ) : binade (-x) = binade x := by
  unfold binade
  simp only [Rat.neg_num, Rat.neg_den, Int.natAbs_neg, abs_neg]

theorem round53_neg (x : ℚ) : round53 (-x) = -round53 x := by
  unfold round53
  by_cases h : x = 0
  · simp [h]
  · rw [if_neg h, if_neg (by simpa using h), binade_neg, neg_div, round_even_neg]
    push_cast
    ring

theorem round53_monotone (x y : ℚ) (hxy : x ≤ y) : round53 x ≤ round53 y := by
  by_cases hx : 0 ≤ x
  · exact round53_mono x y hx hxy
  · have hx' : 0 ≤ -x := by linarith
    by_cases hy : 0 ≤ y
    · have h1 := round53_nonneg (-x) hx'
      have h2 := round53_nonneg y hy
      rw [round53_neg] at h1
      linarith
    · have h1 := round53_mono (-y) (-x) (by linarith) (by linarith)
      rw [round53_neg, round53_neg] at h1
      linarith

theorem fl_monotone (x y : ℚ) (hxy : x ≤ y) : fl x ≤ fl y :=
  max_le_max (le_refl _) (min_le_min (le_refl _) (round53_monotone x y hxy))

theorem fl_mono (x y : ℚ) (_ : 0 ≤ x) (hxy : x ≤ y) : fl x ≤ fl y :=
  fl_monotone x y hxy

/-! ## Element access -/

theorem elem_eq_some {α : Type} (v : List α) :
    ∀ (js : List ℕ) (xs : List α), elem v js = some xs →
      xs.length = js.length ∧ (∀ j ∈ js, j < v.length) ∧ (∀ x ∈ xs, x ∈ v)
  | [], xs, h => by
    simp only [elem, Option.some.injEq] at h
    subst h
    simp
  | j :: js, xs, h => by
    unfold elem at h
    cases hj : v[j]? with
    | none => simp [hj] at h
    | some x =>
      cases hr : elem v js with
      | none => simp [hj, hr] at h
      | some ys =>
        simp only [hj, hr, Option.some.injEq] at h
        subst h
        obtain ⟨h1, h2, h3⟩ := elem_eq_some v js ys hr
        have hjlt : j < v.length := by
          by_contra hc
          have : v[j]? = none := List.getElem?_eq_none (by omega)
          rw [this] at hj
          cases hj
        refine ⟨by simp [h1], ?_, ?_⟩
        · intro i hi
          rcases List.mem_cons.mp hi with rfl | hi
          · exact hjlt
          · exact h2 i hi
        · intro y hy
          rcases List.mem_cons.mp hy with rfl | hy
          · exact List.getElem?_mem hj
          · exact h3 y hy

theorem elem_isSome {α : Type} (v : List α) :
    ∀ (js : List ℕ), (∀ j ∈ js, j < v.length) → ∃ xs, elem v js = some xs
  | [], _ => ⟨[], rfl⟩
  | j :: js, h => by
    obtain ⟨ys, hys⟩ := elem_isSome v js (fun i hi => h i (List.mem_cons_of_mem _ hi))
    have hj : j < v.length := h j (List.mem_cons_self _ _)
    refine ⟨v[j] :: ys, ?_⟩
    unfold elem
    simp [List.getElem?_eq_getElem hj, hys]

theorem elem_eq_none {α : Type} (v : List α) (js : List ℕ) (j : ℕ) (hj : j ∈ js)
    (hlt : v.length ≤ j) : elem v js = none := by
  cases h : elem v js with
  | none => rfl
  | some xs =>
    have := (elem_eq_some v js xs h).2.1 j hj
    omega

theorem find_from_mem (mask : List Bool) :
    ∀ (start j : ℕ), j ∈ find_from start mask → start ≤ j ∧ j < start + mask.length := by
  induction mask with
  | nil => intro start j h; simp [find_from] at h
  | cons b bs ih =>
    intro start j h
    unfold find_from at h
    have key : j = start ∨ j ∈ find_from (start + 1) bs := by
      cases b with
      | true => simpa using h
      | false => right; simpa using h
    rcases key with rfl | h'
    · simp
    · have := ih (start + 1) j h'
      simp only [List.length_cons]
      omega

theorem find_mem (mask : List Bool) (j : ℕ) (h : j ∈ find mask) : j < mask.length := by
  have := find_from_mem mask 0 j h
  omega

theorem sort_index_perm (v : List ℚ) : (sort_index v).Perm (List.range v.length) :=
  List.perm_insertionSort _ _

theorem sort_index_lt (v : List ℚ) (j : ℕ) (h : j ∈ sort_index v) : j < v.length := by
  have := (sort_index_perm v).mem_iff.mp h
  simpa using this

theorem sort_index_length (v : List ℚ) : (sort_index v).length = v.length := by
  have := (sort_index_perm v).length_eq
  simpa using this

theorem lower_bound_le (v : List ℚ) (val : ℚ) : lower_bound v val ≤ v.length := by
  unfold lower_bound
  exact (List.takeWhile_sublist _).length_le

/-! ## The expansion loops return, and record only members of `iduse` -/

theorem at_int_isSome {α : Type} (v : List α) (l : ℤ) (h0 : 0 ≤ l) (h1 : l < v.length) :
    ∃ x, at_int v l = some x ∧ x ∈ v := by
  have hlt : l.toNat < v.length := by omega
  refine ⟨v[l.toNat], ?_, List.getElem_mem _⟩
  simp [at_int, h0, List.getElem?_eq_getElem hlt]

theorem expand_both_some (yuse : List ℚ) (iduse : List ℕ) (val : ℚ)
    (hlen : iduse.length = yuse.length) :
    ∀ (n idx : ℕ) (l : ℤ) (r : ℕ), l < yuse.length →
      ∃ s, expand_both yuse iduse val n idx l r = some s ∧
        (s.idx = idx ∨ s.idx ∈ iduse) ∧ s.l ≤ l := by
  intro n
  induction n with
  | zero => intro idx l r _; exact ⟨_, rfl, Or.inl rfl, le_refl _⟩
  | succ n ih =>
    intro idx l r hl
    unfold expand_both
    by_cases hg : 0 ≤ l ∧ r < yuse.length
    · rw [if_pos hg]
      obtain ⟨yl, hyl, -⟩ := at_int_isSome yuse l hg.1 hl
      obtain ⟨jl, hjl, hjlm⟩ := at_int_isSome iduse l hg.1 (by omega)
      have hr : r < iduse.length := by omega
      simp only [hyl, List.getElem?_eq_getElem hg.2, hjl, List.getElem?_eq_getElem hr]
      split
      · obtain ⟨s, hs, hidx, hsl⟩ := ih jl (l - 1) r (by omega)
        refine ⟨s, hs, Or.inr ?_, by omega⟩
        rcases hidx with h | h
        · rw [h]; exact hjlm
        · exact h
      · obtain ⟨s, hs, hidx, hsl⟩ := ih iduse[r] l (r + 1) hl
        refine ⟨s, hs, Or.inr ?_, hsl⟩
        rcases hidx with h | h
        · rw [h]; exact List.getElem_mem _
        · exact h
    · rw [if_neg hg]
      exact ⟨_, rfl, Or.inl rfl, le_refl _⟩

theorem expand_left_some (iduse : List ℕ) :
    ∀ (n idx : ℕ) (l : ℤ) (r : ℕ), l < iduse.length →
      ∃ s, expand_left iduse n idx l r = some s ∧ (s.idx = idx ∨ s.idx ∈ iduse) ∧ s.r = r := by
  intro n
  induction n with
  | zero => intro idx l r _; exact ⟨_, rfl, Or.inl rfl, rfl⟩
  | succ n ih =>
    intro idx l r hl
    unfold expand_left
    by_cases hg : 0 ≤ l
    · rw [if_pos hg]
      obtain ⟨jl, hjl, hjlm⟩ := at_int_isSome iduse l hg hl
      simp only [hjl]
      obtain ⟨s, hs, hidx, hsr⟩ := ih jl (l - 1) r (by omega)
      refine ⟨s, hs, Or.inr ?_, hsr⟩
      rcases hidx with h | h
      · rw [h]; exact hjlm
      · exact h
    · rw [if_neg hg]
      exact ⟨_, rfl, Or.inl rfl, rfl⟩

theorem expand_right_some (nuse : ℕ) (iduse : List ℕ) (hlen : iduse.length = nuse) :
    ∀ (n idx : ℕ) (l : ℤ) (r : ℕ),
      ∃ s, expand_right nuse iduse n idx l r = some s ∧ (s.idx = idx ∨ s.idx ∈ iduse) := by
  intro n
  induction n with
  | zero => intro idx l r; exact ⟨_, rfl, Or.inl rfl⟩
  | succ n ih =>
    intro idx l r
    unfold expand_right
    by_cases hg : r < nuse
    · rw [if_pos hg]
      have hr : r < iduse.length := by omega
      simp only [List.getElem?_eq_getElem hr]
      obtain ⟨s, hs, hidx⟩ := ih iduse[r] l (r + 1)
      refine ⟨s, hs, Or.inr ?_⟩
      rcases hidx with h | h
      · rw [h]; exact List.getElem_mem _
      · exact h
    · rw [if_neg hg]
      exact ⟨_, rfl, Or.inl rfl⟩

theorem expand_some (yuse : List ℚ) (iduse : List ℕ) (val : ℚ) (hi : ℕ) (l : ℤ) (r : ℕ)
    (hlen : iduse.length = yuse.length) (hl : l < yuse.length) :
    ∃ s, expand yuse iduse val hi l r = some s ∧ (s.idx = 0 ∨ s.idx ∈ iduse) := by
  obtain ⟨s1, h1, hidx1, hl1⟩ := expand_both_some yuse iduse val hlen hi 0 l r hl
  obtain ⟨s2, h2, hidx2, -⟩ := expand_left_some iduse s1.todo s1.idx s1.l s1.r (by omega)
  obtain ⟨s3, h3, hidx3⟩ := expand_right_some yuse.length iduse hlen s2.todo s2.idx s2.l s2.r
  refine ⟨s3, ?_, ?_⟩
  · simp only [expand, h1, h2, h3]
  · rcases hidx3 with h | h
    · rcases hidx2 with h' | h'
      · rcases hidx1 with h'' | h''
        · left; rw [h, h', h'']
        · right; rw [h, h']; exact h''
      · right; rw [h]; exact h'
    · right; exact h

/-! ## The usable subset -/

theorem usable_eq_some (ysort : List ℚ) (id : List ℕ) (ytrue : List ℚ) (c : ℚ)
    (yuse : List ℚ) (iduse : List ℕ) (h : usable ysort id ytrue c = some (yuse, iduse)) :
    iduse.length = yuse.length ∧ (∀ j ∈ iduse, j ∈ id) ∧ (∀ y ∈ yuse, y ∈ ysort) ∧
      (∀ j ∈ id, j < ytrue.length) := by
  unfold usable at h
  cases hyt : elem ytrue id with
  | none => simp [hyt] at h
  | some yt =>
    simp only [hyt] at h
    split at h
    · rename_i ys is hys his
      simp only [Option.some.injEq, Prod.mk.injEq] at h
      obtain ⟨rfl, rfl⟩ := h
      obtain ⟨a1, -, a3⟩ := elem_eq_some _ _ _ hys
      obtain ⟨b1, -, b3⟩ := elem_eq_some _ _ _ his
      exact ⟨by omega, b3, a3, (elem_eq_some _ _ _ hyt).2.1⟩
    · cases h

theorem usable_isSome (ysort : List ℚ) (id : List ℕ) (ytrue : List ℚ) (c : ℚ)
    (hlen : ysort.length = id.length) (hid : ∀ j ∈ id, j < ytrue.length) :
    ∃ yuse iduse, usable ysort id ytrue c = some (yuse, iduse) := by
  obtain ⟨yt, hyt⟩ := elem_isSome ytrue id hid
  have hytlen : yt.length = id.length := (elem_eq_some _ _ _ hyt).1
  have hkeep : ∀ j ∈ find (yt.map (fun y => decide (y ≠ ((to_int c : ℤ) : ℚ)))), j < id.length := by
    intro j hj
    have := find_mem _ j hj
    simpa [hytlen] using this
  obtain ⟨ys, hys⟩ := elem_isSome ysort _ (fun j hj => by rw [hlen]; exact hkeep j hj)
  obtain ⟨is, his⟩ := elem_isSome id _ hkeep
  refine ⟨ys, is, ?_⟩
  simp only [usable, hyt, hys, his]

theorem usable_eq_none (ysort : List ℚ) (id : List ℕ) (ytrue : List ℚ) (c : ℚ)
    (j : ℕ) (hj : j ∈ id) (hlt : ytrue.length ≤ j) : usable ysort id ytrue c = none := by
  simp only [usable, elem_eq_none ytrue id j hj hlt]

/-! ## One target -/

theorem match_one_isSome (ysort : List ℚ) (id : List ℕ) (ytrue : List ℚ) (val c : ℚ) (hi : ℕ)
    (hlen : ysort.length = id.length) (hid : ∀ j ∈ id, j < ytrue.length) :
    ∃ x, match_one ysort id ytrue val c hi = some x ∧ (x = 0 ∨ x ∈ id) := by
  obtain ⟨yuse, iduse, hu⟩ := usable_isSome ysort id ytrue c hlen hid
  obtain ⟨h1, h2, -, -⟩ := usable_eq_some _ _ _ _ _ _ hu
  have hlb := lower_bound_le yuse val
  obtain ⟨s, hs, hidx⟩ := expand_some yuse iduse val hi ((lower_bound yuse val : ℤ) - 1)
    (lower_bound yuse val) h1 (by omega)
  refine ⟨s.idx, ?_, ?_⟩
  · simp only [match_one, hu, hs]
  · rcases hidx with h | h
    · exact Or.inl h
    · exact Or.inr (h2 _ h)

theorem match_one_eq_none (ysort : List ℚ) (id : List ℕ) (ytrue : List ℚ) (val c : ℚ) (hi : ℕ)
    (j : ℕ) (hj : j ∈ id) (hlt : ytrue.length ≤ j) :
    match_one ysort id ytrue val c hi = none := by
  simp only [match_one, usable_eq_none ysort id ytrue c j hj hlt]

/-! ## The loop over the targets -/

theorem targets_isSome (ysort : List ℚ) (id : List ℕ) (ytrue : List ℚ)
    (hlen : ysort.length = id.length) (hid : ∀ j ∈ id, j < ytrue.length) :
    ∀ (vals cs : List ℚ) (his : List ℕ), vals.length ≤ cs.length → vals.length ≤ his.length →
      ∃ res, targets ysort id ytrue vals cs his = some res ∧ res.length = vals.length ∧
        ∀ x ∈ res, x = 0 ∨ x ∈ id
  | [], _, _, _, _ => ⟨[], by simp [targets], rfl, by simp⟩
  | _ :: _, [], _, h, _ => by simp at h
  | _ :: _, _ :: _, [], _, h => by simp at h
  | val :: vals, c :: cs, hi :: his, h1, h2 => by
    obtain ⟨x, hx, hx0⟩ := match_one_isSome ysort id ytrue val c hi hlen hid
    obtain ⟨xs, hxs, hl, hall⟩ := targets_isSome ysort id ytrue hlen hid vals cs his
      (by simpa using h1) (by simpa using h2)
    refine ⟨x :: xs, by simp [targets, hx, hxs], by simp [hl], ?_⟩
    intro y hy
    rcases List.mem_cons.mp hy with rfl | hy
    · exact hx0
    · exact hall y hy

theorem targets_eq_some (ysort : List ℚ) (id : List ℕ) (ytrue : List ℚ) :
    ∀ (vals cs : List ℚ) (his res : List ℕ), targets ysort id ytrue vals cs his = some res →
      res.length = vals.length ∧ vals.length ≤ cs.length ∧ vals.length ≤ his.length ∧
      ∀ (i : ℕ) (v c : ℚ) (hi : ℕ), vals[i]? = some v → cs[i]? = some c → his[i]? = some hi →
        match_one ysort id ytrue v c hi = res[i]?
  | [], _, _, res, h => by
    simp only [targets, Option.some.injEq] at h
    subst h
    simp
  | _ :: _, [], _, _, h => by simp [targets] at h
  | _ :: _, _ :: _, [], _, h => by simp [targets] at h
  | val :: vals, c :: cs, hi :: his, res, h => by
    unfold targets at h
    cases hx : match_one ysort id ytrue val c hi with
    | none => simp [hx] at h
    | some x =>
      cases hxs : targets ysort id ytrue vals cs his with
      | none => simp [hx, hxs] at h
      | some xs =>
        simp only [hx, hxs, Option.some.injEq] at h
        subst h
        obtain ⟨a1, a2, a3, a4⟩ := targets_eq_some ysort id ytrue vals cs his xs hxs
        refine ⟨by simp [a1], by simpa using a2, by simpa using a3, ?_⟩
        intro i v c' hi' hv hc hh
        cases i with
        | zero =>
          simp only [List.getElem?_cons_zero, Option.some.injEq] at hv hc hh
          subst hv hc hh
          simpa using hx
        | succ i =>
          simp only [List.getElem?_cons_succ] at hv hc hh ⊢
          exact a4 i v c' hi' hv hc hh

theorem targets_eq_none_of_short (ysort : List ℚ) (id : List ℕ) (ytrue : List ℚ)
    (vals cs : List ℚ) (his : List ℕ) (h : cs.length < vals.length) :
    targets ysort id ytrue vals cs his = none := by
  cases hres : targets ysort id ytrue vals cs his with
  | none => rfl
  | some res =>
    have := (targets_eq_some ysort id ytrue vals cs his res hres).2.1
    omega

theorem targets_eq_none_of_index (ysort : List ℚ) (id : List ℕ) (ytrue : List ℚ)
    (vals cs : List ℚ) (his : List ℕ) (hv : 0 < vals.length)
    (j : ℕ) (hj : j ∈ id) (hlt : ytrue.length ≤ j) :
    targets ysort id ytrue vals cs his = none := by
  cases vals with
  | nil => simp at hv
  | cons val vals =>
    cases cs with
    | nil => simp [targets]
    | cons c cs =>
      cases his with
      | nil => simp [targets]
      | cons hi his =>
        simp [targets, match_one_eq_none ysort id ytrue val c hi j hj hlt]

/-! ## The whole call -/

theorem matchindex_dev_eq (sample : Sample) (yhatobs yhatmis : List ℚ) (k : ℤ)
    (cond ytrue : List ℚ) (hs : IsShuffle (sample.shuffle yhatobs.length) yhatobs.length) :
    ∃ yshuf ysort, yshuf.length = yhatobs.length ∧ ysort.length = yhatobs.length ∧
      elem yhatobs ((sample.shuffle yhatobs.length).map (fun j => j - 1)) = some yshuf ∧
      elem yshuf (sort_index yshuf) = some ysort ∧
      matchindex_dev sample yhatobs yhatmis k cond ytrue =
        Option.map (List.map (fun j => j + 1))
          (targets ysort (sort_index yshuf) ytrue yhatmis cond
            (sample.draw (clamp_k k yhatobs.length) yhatmis.length)) := by
  have hmem : ∀ j ∈ (sample.shuffle yhatobs.length).map (fun j => j - 1), j < yhatobs.length := by
    intro j hj
    obtain ⟨i, hi, rfl⟩ := List.mem_map.mp hj
    have := hs.mem_iff.mp hi
    simp only [List.mem_range'_1] at this
    omega
  obtain ⟨yshuf, hyshuf⟩ := elem_isSome yhatobs _ hmem
  have hl1 : yshuf.length = yhatobs.length := by
    have := (elem_eq_some _ _ _ hyshuf).1
    rw [this, List.length_map, hs.length_eq, List.length_range']
  obtain ⟨ysort, hysort⟩ := elem_isSome yshuf (sort_index yshuf) (sort_index_lt yshuf)
  have hl2 : ysort.length = yhatobs.length := by
    rw [(elem_eq_some _ _ _ hysort).1, sort_index_length, hl1]
  refine ⟨yshuf, ysort, hl1, hl2, hyshuf, hysort, ?_⟩
  simp only [matchindex_dev, hyshuf, hysort]
  cases targets ysort (sort_index yshuf) ytrue yhatmis cond
    (sample.draw (clamp_k k yhatobs.length) yhatmis.length) <;> rfl

theorem matchindex_dev_eq_some (sample : Sample) (yhatobs yhatmis : List ℚ) (k : ℤ)
    (cond ytrue : List ℚ) (res : List ℕ)
    (h : matchindex_dev sample yhatobs yhatmis k cond ytrue = some res) :
    ∃ yshuf ysort idx,
      elem yhatobs ((sample.shuffle yhatobs.length).map (fun j => j - 1)) = some yshuf ∧
      elem yshuf (sort_index yshuf) = some ysort ∧
      targets ysort (sort_index yshuf) ytrue yhatmis cond
        (sample.draw (clamp_k k yhatobs.length) yhatmis.length) = some idx ∧
      res = idx.map (fun j => j + 1) := by
  unfold matchindex_dev at h
  cases h1 : elem yhatobs ((sample.shuffle yhatobs.length).map (fun j => j - 1)) with
  | none => simp [h1] at h
  | some yshuf =>
    cases h2 : elem yshuf (sort_index yshuf) with
    | none => simp [h1, h2] at h
    | some ysort =>
      cases h3 : targets ysort (sort_index yshuf) ytrue yhatmis cond
          (sample.draw (clamp_k k yhatobs.length) yhatmis.length) with
      | none => simp [h1, h2, h3] at h
      | some idx =>
        simp only [h1, h2, h3, Option.some.injEq] at h
        exact ⟨yshuf, ysort, idx, rfl, h2, h3, h.symm⟩

theorem matchindex_dev_isSome (sample : Sample) (yhatobs yhatmis : List ℚ) (k : ℤ)
    (cond ytrue : List ℚ)
    (hs : IsShuffle (sample.shuffle yhatobs.length) yhatobs.length)
    (hh : yhatmis.length ≤ (sample.draw (clamp_k k yhatobs.length) yhatmis.length).length)
    (hc : yhatmis.length ≤ cond.length) (ht : yhatobs.length ≤ ytrue.length) :
    ∃ res, matchindex_dev sample yhatobs yhatmis k cond ytrue = some res ∧
      res.length = yhatmis.length ∧ ∀ x ∈ res, 1 ≤ x ∧ x ≤ max 1 yhatobs.length := by
  obtain ⟨yshuf, ysort, hl1, hl2, -, -, heq⟩ :=
    matchindex_dev_eq sample yhatobs yhatmis k cond ytrue hs
  have hid : ∀ j ∈ sort_index yshuf, j < ytrue.length := by
    intro j hj
    have := sort_index_lt yshuf j hj
    omega
  obtain ⟨idx, hidx, hlen, hall⟩ := targets_isSome ysort (sort_index yshuf) ytrue
    (by rw [hl2, sort_index_length, hl1]) hid yhatmis cond _ hc hh
  refine ⟨idx.map (fun j => j + 1), by rw [heq, hidx]; rfl, by simp [hlen], ?_⟩
  intro x hx
  obtain ⟨j, hj, rfl⟩ := List.mem_map.mp hx
  rcases hall j hj with h0 | hm
  · subst h0; simp
  · have := sort_index_lt yshuf j hm
    omega

theorem clamp_k_eq (k nobs : ℤ) (hn : 1 ≤ nobs) : clamp_k k nobs = max 1 (min k nobs) := by
  unfold clamp_k
  by_cases h1 : k < 1
  · simp only [h1, if_true]
    rw [if_neg (by omega)]
    omega
  · simp only [h1, if_false]
    by_cases h2 : k > nobs
    · rw [if_pos h2]; omega
    · rw [if_neg h2]; omega

theorem matchindex_dev_congr_sample (s s' : Sample) (yhatobs yhatmis : List ℚ) (k : ℤ)
    (cond ytrue : List ℚ)
    (h1 : s.shuffle yhatobs.length = s'.shuffle yhatobs.length)
    (h2 : s.draw (clamp_k k yhatobs.length) yhatmis.length =
      s'.draw (clamp_k k yhatobs.length) yhatmis.length) :
    matchindex_dev s yhatobs yhatmis k cond ytrue =
      matchindex_dev s' yhatobs yhatmis k cond ytrue := by
  simp only [matchindex_dev, h1, h2]

theorem usable_congr (ysort : List ℚ) (id : List ℕ) (ytrue : List ℚ) (c c' : ℚ)
    (h : ∀ y ∈ ytrue, y ≠ ((to_int c : ℤ) : ℚ)) (h' : ∀ y ∈ ytrue, y ≠ ((to_int c' : ℤ) : ℚ)) :
    usable ysort id ytrue c = usable ysort id ytrue c' := by
  unfold usable
  cases hyt : elem ytrue id with
  | none => rfl
  | some yt =>
    have hm := (elem_eq_some _ _ _ hyt).2.2
    have : yt.map (fun y => decide (y ≠ ((to_int c : ℤ) : ℚ))) =
        yt.map (fun y => decide (y ≠ ((to_int c' : ℤ) : ℚ))) := by
      apply List.map_congr_left
      intro y hy
      simp [h y (hm y hy), h' y (hm y hy)]
    simp only [this]

theorem targets_congr (ysort : List ℚ) (id : List ℕ) (ytrue : List ℚ) :
    ∀ (vals cs cs' : List ℚ) (his : List ℕ),
      List.Forall₂ (fun c c' => usable ysort id ytrue c = usable ysort id ytrue c') cs cs' →
      targets ysort id ytrue vals cs his = targets ysort id ytrue vals cs' his
  | [], _, _, _, _ => by simp [targets]
  | _ :: _, _, _, _, List.Forall₂.nil => rfl
  | _ :: _, _ :: _, _ :: _, [], List.Forall₂.cons _ _ => by simp [targets]
  | val :: vals, c :: cs, c' :: cs', hi :: his, List.Forall₂.cons hc hcs => by
    simp only [targets, match_one, hc, targets_congr ysort id ytrue vals cs cs' his hcs]

theorem matchindex_dev_congr_cond (sample : Sample) (yhatobs yhatmis : List ℚ) (k : ℤ)
    (cond cond' ytrue : List ℚ)
    (h : List.Forall₂ (fun c c' => (∀ y ∈ ytrue, y ≠ ((to_int c : ℤ) : ℚ)) ∧
      ∀ y ∈ ytrue, y ≠ ((to_int c' : ℤ) : ℚ)) cond cond') :
    matchindex_dev sample yhatobs yhatmis k cond ytrue =
      matchindex_dev sample yhatobs yhatmis k cond' ytrue := by
  simp only [matchindex_dev]
  cases elem yhatobs ((sample.shuffle yhatobs.length).map (fun j => j - 1)) with
  | none => rfl
  | some yshuf =>
    simp only []
    cases elem yshuf (sort_index yshuf) with
    | none => rfl
    | some ysort =>
      have := targets_congr ysort (sort_index yshuf) ytrue yhatmis cond cond'
        (sample.draw (clamp_k k yhatobs.length) yhatmis.length)
        (h.imp (fun c c' hcc => usable_congr ysort (sort_index yshuf) ytrue c c' hcc.1 hcc.2))
      simp only [this]

theorem ranks_k1 : ∀ (h : List ℕ), h.length = 7 → (∀ x ∈ h, 1 ≤ x ∧ x ≤ 1) →
    h = [1, 1, 1, 1, 1, 1, 1] := by
  intro h hl hx
  have : h = List.replicate 7 1 := by
    rw [List.eq_replicate_iff]
    exact ⟨hl, fun x hxm => by have := hx x hxm; omega⟩
  simpa using this

/-! ## The three loops as one iterated step -/

theorem at_int_eq_getD {α : Type} (v : List α) (l : ℤ) (d : α) (h0 : 0 ≤ l)
    (h1 : l < v.length) : at_int v l = some (v.getD l.toNat d) := by
  have hlt : l.toNat < v.length := by omega
  simp [at_int, h0, List.getElem?_eq_getElem hlt, List.getD_eq_getElem _ d hlt]

theorem getElem?_eq_getD {α : Type} (v : List α) (r : ℕ) (d : α) (h : r < v.length) :
    v[r]? = some (v.getD r d) := by
  simp [List.getElem?_eq_getElem h, List.getD_eq_getElem _ d h]

theorem expand_both_stop (yuse : List ℚ) (iduse : List ℕ) (val : ℚ) (n idx : ℕ) (l : ℤ)
    (r : ℕ) (h : ¬ (0 ≤ l ∧ r < yuse.length)) :
    expand_both yuse iduse val n idx l r = some ⟨idx, l, r, n⟩ := by
  cases n with
  | zero => rfl
  | succ n => unfold expand_both; rw [if_neg h]

theorem expand_left_stop (iduse : List ℕ) (n idx : ℕ) (l : ℤ) (r : ℕ) (h : ¬ 0 ≤ l) :
    expand_left iduse n idx l r = some ⟨idx, l, r, n⟩ := by
  cases n with
  | zero => rfl
  | succ n => unfold expand_left; rw [if_neg h]

theorem expand_right_stop (nuse : ℕ) (iduse : List ℕ) (n idx : ℕ) (l : ℤ) (r : ℕ)
    (h : ¬ r < nuse) : expand_right nuse iduse n idx l r = some ⟨idx, l, r, n⟩ := by
  cases n with
  | zero => rfl
  | succ n => unfold expand_right; rw [if_neg h]

theorem expand_from_stop (yuse : List ℚ) (iduse : List ℕ) (val : ℚ) (n idx : ℕ) (l : ℤ)
    (r : ℕ) (hl : ¬ 0 ≤ l) (hr : ¬ r < yuse.length) :
    expand_from yuse iduse val n idx l r = some ⟨idx, l, r, n⟩ := by
  unfold expand_from
  rw [expand_both_stop yuse iduse val n idx l r (fun h => hl h.1)]
  simp only
  rw [expand_left_stop iduse n idx l r hl]
  simp only
  rw [expand_right_stop yuse.length iduse n idx l r hr]

theorem expand_from_succ (yuse : List ℚ) (iduse : List ℕ) (val : ℚ)
    (hlen : iduse.length = yuse.length) (n idx : ℕ) (l : ℤ) (r : ℕ) (hl : l < yuse.length)
    (hopen : 0 ≤ l ∨ r < yuse.length) :
    expand_from yuse iduse val (n + 1) idx l r =
      expand_from yuse iduse val n (advance yuse iduse val ⟨idx, l, r⟩).idx
        (advance yuse iduse val ⟨idx, l, r⟩).l (advance yuse iduse val ⟨idx, l, r⟩).r := by
  by_cases hg : 0 ≤ l ∧ r < yuse.length
  · have hr : r < iduse.length := by omega
    have e1 : expand_both yuse iduse val (n + 1) idx l r =
        expand_both yuse iduse val n (advance yuse iduse val ⟨idx, l, r⟩).idx
          (advance yuse iduse val ⟨idx, l, r⟩).l (advance yuse iduse val ⟨idx, l, r⟩).r := by
      conv_lhs => unfold expand_both
      rw [if_pos hg, at_int_eq_getD yuse l 0 hg.1 hl, getElem?_eq_getD yuse r 0 hg.2,
        at_int_eq_getD iduse l 0 hg.1 (by omega), getElem?_eq_getD iduse r 0 hr]
      simp only [advance, hg, and_self, if_true]
      split <;> rfl
    unfold expand_from
    rw [e1]
  · by_cases h0 : 0 ≤ l
    · have hr : ¬ r < yuse.length := fun h => hg ⟨h0, h⟩
      have hadv : advance yuse iduse val ⟨idx, l, r⟩ = ⟨iduse.getD l.toNat 0, l - 1, r⟩ := by
        simp only [advance, hr, and_false, if_false, h0, if_true]
      rw [hadv]
      unfold expand_from
      rw [expand_both_stop yuse iduse val (n + 1) idx l r hg,
        expand_both_stop yuse iduse val n _ (l - 1) r (fun h => hr h.2)]
      simp only
      conv_lhs => unfold expand_left
      rw [if_pos h0, at_int_eq_getD iduse l 0 h0 (by omega)]
    · have hr : r < yuse.length := by
        rcases hopen with h | h
        · exact absurd h h0
        · exact h
      have hadv : advance yuse iduse val ⟨idx, l, r⟩ = ⟨iduse.getD r 0, l, r + 1⟩ := by
        simp only [advance, h0, false_and, if_false, hr, if_true]
      rw [hadv]
      unfold expand_from
      rw [expand_both_stop yuse iduse val (n + 1) idx l r hg,
        expand_both_stop yuse iduse val n _ l (r + 1) (fun h => h0 h.1)]
      simp only
      rw [expand_left_stop iduse (n + 1) idx l r h0, expand_left_stop iduse n _ l (r + 1) h0]
      simp only
      conv_lhs => unfold expand_right
      rw [if_pos hr, getElem?_eq_getD iduse r 0 (by omega)]

theorem advance_closed (yuse : List ℚ) (iduse : List ℕ) (val : ℚ) (c : Cursor)
    (hl : ¬ 0 ≤ c.l) (hr : ¬ c.r < yuse.length) : advance yuse iduse val c = c := by
  simp only [advance, hl, false_and, if_false, hr]

theorem advance_open (yuse : List ℚ) (iduse : List ℕ) (val : ℚ) (c : Cursor)
    (hopen : 0 ≤ c.l ∨ c.r < yuse.length) :
    ((advance yuse iduse val c).l = c.l - 1 ∧ (advance yuse iduse val c).r = c.r ∧
      0 ≤ c.l ∧ (advance yuse iduse val c).idx = iduse.getD c.l.toNat 0 ∧
      (c.r < yuse.length → fl (val - yuse.getD c.l.toNat 0) < fl (yuse.getD c.r 0 - val))) ∨
    ((advance yuse iduse val c).l = c.l ∧ (advance yuse iduse val c).r = c.r + 1 ∧
      c.r < yuse.length ∧ (advance yuse iduse val c).idx = iduse.getD c.r 0 ∧
      (0 ≤ c.l → ¬ fl (val - yuse.getD c.l.toNat 0) < fl (yuse.getD c.r 0 - val))) := by
  unfold advance
  by_cases hg : 0 ≤ c.l ∧ c.r < yuse.length
  · rw [if_pos hg]
    by_cases hc : fl (val - yuse.getD c.l.toNat 0) < fl (yuse.getD c.r 0 - val)
    · rw [if_pos hc]
      exact Or.inl ⟨rfl, rfl, hg.1, rfl, fun _ => hc⟩
    · rw [if_neg hc]
      exact Or.inr ⟨rfl, rfl, hg.2, rfl, fun _ => hc⟩
  · rw [if_neg hg]
    by_cases h0 : 0 ≤ c.l
    · rw [if_pos h0]
      exact Or.inl ⟨rfl, rfl, h0, rfl, fun h => absurd ⟨h0, h⟩ hg⟩
    · rw [if_neg h0]
      have hr : c.r < yuse.length := by
        rcases hopen with h | h
        · exact absurd h h0
        · exact h
      rw [if_pos hr]
      exact Or.inr ⟨rfl, rfl, hr, rfl, fun h => absurd h h0⟩

theorem expand_from_eq (yuse : List ℚ) (iduse : List ℕ) (val : ℚ)
    (hlen : iduse.length = yuse.length) :
    ∀ (n idx : ℕ) (l : ℤ) (r : ℕ), l < yuse.length →
      expand_from yuse iduse val n idx l r =
        some ⟨((advance yuse iduse val)^[n] ⟨idx, l, r⟩).idx,
          ((advance yuse iduse val)^[n] ⟨idx, l, r⟩).l,
          ((advance yuse iduse val)^[n] ⟨idx, l, r⟩).r,
          n - unvisited yuse.length l r⟩ := by
  intro n
  induction n with
  | zero =>
    intro idx l r _
    simp [expand_from, expand_both, expand_left, expand_right]
  | succ n ih =>
    intro idx l r hl
    by_cases hopen : 0 ≤ l ∨ r < yuse.length
    · rw [expand_from_succ yuse iduse val hlen n idx l r hl hopen, Function.iterate_succ_apply]
      have hstep := advance_open yuse iduse val ⟨idx, l, r⟩ hopen
      have hl2 : (advance yuse iduse val ⟨idx, l, r⟩).l < yuse.length := by
        rcases hstep with h | h
        · have := h.1; simp only at this; omega
        · have := h.1; simp only at this; omega
      rw [ih _ _ _ hl2]
      have htodo : n - unvisited yuse.length (advance yuse iduse val ⟨idx, l, r⟩).l
          (advance yuse iduse val ⟨idx, l, r⟩).r = n + 1 - unvisited yuse.length l r := by
        unfold unvisited
        rcases hstep with h | h
        · obtain ⟨h1, h2, h3, -, -⟩ := h
          simp only at h1 h2 h3
          rw [h1, h2]; omega
        · obtain ⟨h1, h2, h3, -, -⟩ := h
          simp only at h1 h2 h3
          rw [h1, h2]; omega
      rw [htodo]
    · have hl0 : ¬ 0 ≤ l := fun h => hopen (Or.inl h)
      have hr0 : ¬ r < yuse.length := fun h => hopen (Or.inr h)
      rw [expand_from_stop yuse iduse val (n + 1) idx l r hl0 hr0]
      have hfix : (advance yuse iduse val)^[n + 1] ⟨idx, l, r⟩ = ⟨idx, l, r⟩ :=
        Function.iterate_fixed (advance_closed yuse iduse val ⟨idx, l, r⟩ hl0 hr0) _
      rw [hfix]
      have : unvisited yuse.length l r = 0 := by unfold unvisited; omega
      rw [this]
      rfl

/-! ## The search visits the positions in order of distance -/

theorem computed_dist_below (yuse : List ℚ) (val : ℚ) (q : ℕ) (h : yuse.getD q 0 < val) :
    computed_dist yuse val q = fl (val - yuse.getD q 0) := by
  unfold computed_dist
  rw [abs_of_neg (by linarith)]
  congr 1
  ring

theorem computed_dist_above (yuse : List ℚ) (val : ℚ) (q : ℕ) (h : val ≤ yuse.getD q 0) :
    computed_dist yuse val q = fl (yuse.getD q 0 - val) := by
  unfold computed_dist
  rw [abs_of_nonneg (by linarith)]

theorem swept_advance (yuse : List ℚ) (iduse : List ℕ) (val : ℚ) (c : Cursor)
    (hs : ∀ i j : ℕ, i ≤ j → j < yuse.length → yuse.getD i 0 ≤ yuse.getD j 0)
    (hc : Swept yuse iduse val c) (hopen : 0 ≤ c.l ∨ c.r < yuse.length) :
    Swept yuse iduse val (advance yuse iduse val c) ∧
    (advance yuse iduse val c).l ≤ c.l ∧ c.r ≤ (advance yuse iduse val c).r ∧
    ((advance yuse iduse val c).r : ℤ) - (advance yuse iduse val c).l = c.r - c.l + 1 ∧
    ∃ p : ℕ, ((p : ℤ) ≤ c.l ∨ c.r ≤ p) ∧ (advance yuse iduse val c).l < p ∧
      p < (advance yuse iduse val c).r ∧ iduse.getD p 0 = (advance yuse iduse val c).idx := by
  obtain ⟨lo, lt, hi, below, above, near, last⟩ := hc
  rcases advance_open yuse iduse val c hopen with ⟨e1, e2, h0, e3, hcmp⟩ | ⟨e1, e2, hr, e3, hcmp⟩
  · -- the left candidate is taken
    have hp : ((c.l.toNat : ℕ) : ℤ) = c.l := Int.toNat_of_nonneg h0
    have hbl : yuse.getD c.l.toNat 0 < val := below _ (by omega)
    have hdl := computed_dist_below yuse val _ hbl
    have hnew : ∀ u : ℕ, u < yuse.length → ((u : ℤ) ≤ c.l - 1 ∨ c.r ≤ u) →
        computed_dist yuse val c.l.toNat ≤ computed_dist yuse val u := by
      intro u hu hcase
      rcases hcase with h | h
      · have hbu : yuse.getD u 0 < val := below u (by omega)
        have := hs u c.l.toNat (by omega) (by omega)
        rw [hdl, computed_dist_below yuse val u hbu]
        exact fl_mono _ _ (by linarith) (by linarith)
      · have hau : val ≤ yuse.getD u 0 := above u h hu
        have h1 := hcmp (by omega)
        have h2 := hs c.r u h hu
        have har : val ≤ yuse.getD c.r 0 := above c.r (le_refl _) (by omega)
        rw [hdl, computed_dist_above yuse val u hau]
        exact le_trans (le_of_lt h1) (fl_mono _ _ (by linarith) (by linarith))
    refine ⟨⟨by rw [e1]; omega, by rw [e1, e2]; omega, by rw [e2]; exact hi, ?_, ?_, ?_, ?_⟩,
      by rw [e1]; omega, by rw [e2], by rw [e1, e2]; omega,
      ⟨c.l.toNat, Or.inl (by omega), by rw [e1]; omega, by rw [e2]; omega, e3.symm⟩⟩
    · intro q hq; rw [e1] at hq; exact below q (by omega)
    · intro q hq hqn; rw [e2] at hq; exact above q hq hqn
    · intro v u hv1 hv2 hu hcase
      rw [e1] at hv1 hcase; rw [e2] at hv2 hcase
      by_cases hv : (v : ℤ) = c.l
      · have : v = c.l.toNat := by omega
        rw [this]; exact hnew u hu hcase
      · exact near v u (by omega) hv2 hu (by omega)
    · right
      refine ⟨c.l.toNat, Or.inl (by rw [e1]; omega), by rw [e1]; omega, by rw [e2]; omega,
        e3.symm, ?_⟩
      intro v hv1 hv2
      rw [e1] at hv1; rw [e2] at hv2
      by_cases hv : (v : ℤ) = c.l
      · have : v = c.l.toNat := by omega
        rw [this]
      · exact near v c.l.toNat (by omega) hv2 (by omega) (Or.inl (by omega))
  · -- the right candidate is taken
    have har : val ≤ yuse.getD c.r 0 := above _ (le_refl _) hr
    have hdr := computed_dist_above yuse val _ har
    have hnew : ∀ u : ℕ, u < yuse.length → ((u : ℤ) ≤ c.l ∨ c.r + 1 ≤ u) →
        computed_dist yuse val c.r ≤ computed_dist yuse val u := by
      intro u hu hcase
      rcases hcase with h | h
      · have h0 : 0 ≤ c.l := by omega
        have hbu : yuse.getD u 0 < val := below u h
        have hbl : yuse.getD c.l.toNat 0 < val := below _ (by omega)
        have h1 := hcmp h0
        have h2 := hs u c.l.toNat (by omega) (by omega)
        rw [hdr, computed_dist_below yuse val u hbu]
        exact le_trans (not_lt.mp h1) (fl_mono _ _ (by linarith) (by linarith))
      · have hau : val ≤ yuse.getD u 0 := above u (by omega) hu
        have h2 := hs c.r u (by omega) hu
        rw [hdr, computed_dist_above yuse val u hau]
        exact fl_mono _ _ (by linarith) (by linarith)
    refine ⟨⟨by rw [e1]; exact lo, by rw [e1, e2]; push_cast; omega, by rw [e2]; omega,
      ?_, ?_, ?_, ?_⟩,
      by rw [e1], by rw [e2]; omega, by rw [e1, e2]; push_cast; omega,
      ⟨c.r, Or.inr (le_refl _), by rw [e1]; omega, by rw [e2]; omega, e3.symm⟩⟩
    · intro q hq; rw [e1] at hq; exact below q hq
    · intro q hq hqn; rw [e2] at hq; exact above q (by omega) hqn
    · intro v u hv1 hv2 hu hcase
      rw [e1] at hv1 hcase; rw [e2] at hv2 hcase
      by_cases hv : v = c.r
      · rw [hv]; exact hnew u hu (by omega)
      · exact near v u hv1 (by omega) hu (by omega)
    · right
      refine ⟨c.r, Or.inr (by rw [e2]), by rw [e1]; omega, by rw [e2]; omega, e3.symm, ?_⟩
      intro v hv1 hv2
      rw [e1] at hv1; rw [e2] at hv2
      by_cases hv : v = c.r
      · rw [hv]
      · exact near v c.r hv1 (by omega) hr (Or.inr (le_refl _))

theorem lower_bound_below (v : List ℚ) (val : ℚ) :
    ∀ q : ℕ, q < lower_bound v val → v.getD q 0 < val := by
  induction v with
  | nil => intro q hq; simp [lower_bound] at hq
  | cons y ys ih =>
    intro q hq
    unfold lower_bound at hq ih
    by_cases hy : y < val
    · rw [List.takeWhile_cons_of_pos (by simpa using hy)] at hq
      cases q with
      | zero => simpa using hy
      | succ q =>
        simp only [List.length_cons, Nat.succ_lt_succ_iff] at hq
        simpa using ih q hq
    · rw [List.takeWhile_cons_of_neg (by simpa using hy)] at hq
      simp at hq

theorem lower_bound_at (v : List ℚ) (val : ℚ) (h : lower_bound v val < v.length) :
    val ≤ v.getD (lower_bound v val) 0 := by
  induction v with
  | nil => simp at h
  | cons y ys ih =>
    unfold lower_bound at h ih ⊢
    by_cases hy : y < val
    · rw [List.takeWhile_cons_of_pos (by simpa using hy)] at h ⊢
      simp only [List.length_cons, Nat.succ_lt_succ_iff] at h
      simpa using ih h
    · rw [List.takeWhile_cons_of_neg (by simpa using hy)]
      simpa using hy

theorem sorted_getD (v : List ℚ) (hs : v.Sorted (fun a b => a ≤ b)) :
    ∀ i j : ℕ, i ≤ j → j < v.length → v.getD i 0 ≤ v.getD j 0 := by
  intro i j hij hj
  have hi : i < v.length := by omega
  rw [List.getD_eq_getElem _ 0 hi, List.getD_eq_getElem _ 0 hj]
  rcases Nat.eq_or_lt_of_le hij with h | h
  · subst h; exact le_refl _
  · exact List.pairwise_iff_getElem.mp hs i j hi hj h

theorem swept_start (yuse : List ℚ) (iduse : List ℕ) (val : ℚ) (idx : ℕ)
    (hs : ∀ i j : ℕ, i ≤ j → j < yuse.length → yuse.getD i 0 ≤ yuse.getD j 0) :
    Swept yuse iduse val ⟨idx, (lower_bound yuse val : ℤ) - 1, lower_bound yuse val⟩ := by
  refine ⟨by simp only; omega, by simp only; omega, lower_bound_le yuse val, ?_, ?_, ?_,
    Or.inl (by simp only; omega)⟩
  · intro q hq
    simp only at hq
    exact lower_bound_below yuse val q (by omega)
  · intro q hq hqn
    simp only at hq
    have h1 := lower_bound_at yuse val (by omega)
    have h2 := hs _ q hq hqn
    linarith
  · intro v u hv1 hv2
    simp only at hv1 hv2
    omega

theorem swept_iterate (yuse : List ℚ) (iduse : List ℕ) (val : ℚ)
    (hs : ∀ i j : ℕ, i ≤ j → j < yuse.length → yuse.getD i 0 ≤ yuse.getD j 0) (c : Cursor)
    (hc : Swept yuse iduse val c) :
    ∀ k : ℕ, Swept yuse iduse val ((advance yuse iduse val)^[k] c) ∧
      ((advance yuse iduse val)^[k] c).l ≤ c.l ∧ c.r ≤ ((advance yuse iduse val)^[k] c).r ∧
      (((advance yuse iduse val)^[k] c).r : ℤ) - ((advance yuse iduse val)^[k] c).l - 1 =
        min ((c.r : ℤ) - c.l - 1 + k) yuse.length := by
  intro k
  induction k with
  | zero =>
    refine ⟨hc, le_refl _, le_refl _, ?_⟩
    have := hc.lo
    have := hc.hi
    simp only [Function.iterate_zero, id_eq]
    omega
  | succ k ih =>
    obtain ⟨h1, h2, h3, h4⟩ := ih
    rw [Function.iterate_succ_apply']
    by_cases hopen : 0 ≤ ((advance yuse iduse val)^[k] c).l ∨
        ((advance yuse iduse val)^[k] c).r < yuse.length
    · obtain ⟨a1, a2, a3, a4, -⟩ := swept_advance yuse iduse val _ hs h1 hopen
      refine ⟨a1, by omega, by omega, ?_⟩
      have := h1.lo
      have := h1.hi
      push_cast
      omega
    · have hl0 : ¬ 0 ≤ ((advance yuse iduse val)^[k] c).l := fun h => hopen (Or.inl h)
      have hr0 : ¬ ((advance yuse iduse val)^[k] c).r < yuse.length :=
        fun h => hopen (Or.inr h)
      rw [advance_closed yuse iduse val _ hl0 hr0]
      refine ⟨h1, h2, h3, ?_⟩
      have := h1.lo
      have := h1.hi
      push_cast
      omega

theorem closer_computed_lt (yuse : List ℚ) (iduse : List ℕ) (val : ℚ) (c : Cursor)
    (hc : Swept yuse iduse val c) (p : ℕ) (hp1 : c.l < p) (hp2 : p < c.r)
    (hmax : ∀ v : ℕ, c.l < v → v < c.r → computed_dist yuse val v ≤ computed_dist yuse val p) :
    (closer_computed yuse val p : ℤ) < c.r - c.l - 1 ∧
    (c.r : ℤ) - c.l - 1 ≤ within_computed yuse val p := by
  have hlo := hc.lo
  have hhi := hc.hi
  have e1 : closer_computed yuse val p = ((Finset.range yuse.length).filter
      (fun q => computed_dist yuse val q < computed_dist yuse val p)).card := by
    unfold closer_computed
    rfl
  have e2 : within_computed yuse val p = ((Finset.range yuse.length).filter
      (fun q => computed_dist yuse val q ≤ computed_dist yuse val p)).card := by
    unfold within_computed
    rfl
  have hcard : (Finset.Ico (c.l + 1).toNat c.r).card = c.r - (c.l + 1).toNat :=
    Nat.card_Ico _ _
  constructor
  · have hsub : (Finset.range yuse.length).filter
        (fun q => computed_dist yuse val q < computed_dist yuse val p) ⊆
        (Finset.Ico (c.l + 1).toNat c.r).erase p := by
      intro q hq
      simp only [Finset.mem_filter, Finset.mem_range] at hq
      simp only [Finset.mem_erase, Finset.mem_Ico]
      refine ⟨?_, ?_⟩
      · intro h; rw [h] at hq; exact lt_irrefl _ hq.2
      · by_contra hout
        have := hc.near p q hp1 hp2 hq.1 (by omega)
        exact absurd hq.2 (not_lt.mpr this)
    have h1 := Finset.card_le_card hsub
    have hmem : p ∈ Finset.Ico (c.l + 1).toNat c.r := by
      simp only [Finset.mem_Ico]; omega
    rw [Finset.card_erase_of_mem hmem, hcard] at h1
    rw [e1]
    omega
  · have hsub : Finset.Ico (c.l + 1).toNat c.r ⊆ (Finset.range yuse.length).filter
        (fun q => computed_dist yuse val q ≤ computed_dist yuse val p) := by
      intro q hq
      simp only [Finset.mem_Ico] at hq
      simp only [Finset.mem_filter, Finset.mem_range]
      exact ⟨by omega, hmax q (by omega) hq.2⟩
    have h1 := Finset.card_le_card hsub
    rw [hcard] at h1
    rw [e2]
    omega

theorem expand_eq (yuse : List ℚ) (iduse : List ℕ) (val : ℚ)
    (hlen : iduse.length = yuse.length) (h : ℕ) :
    expand yuse iduse val h ((lower_bound yuse val : ℤ) - 1) (lower_bound yuse val) =
      some ⟨((advance yuse iduse val)^[h] ⟨0, (lower_bound yuse val : ℤ) - 1,
              lower_bound yuse val⟩).idx,
        ((advance yuse iduse val)^[h] ⟨0, (lower_bound yuse val : ℤ) - 1,
              lower_bound yuse val⟩).l,
        ((advance yuse iduse val)^[h] ⟨0, (lower_bound yuse val : ℤ) - 1,
              lower_bound yuse val⟩).r,
        h - yuse.length⟩ := by
  have hlb := lower_bound_le yuse val
  have h1 := expand_from_eq yuse iduse val hlen h 0 ((lower_bound yuse val : ℤ) - 1)
    (lower_bound yuse val) (by omega)
  have h2 : unvisited yuse.length ((lower_bound yuse val : ℤ) - 1) (lower_bound yuse val) =
      yuse.length := by
    unfold unvisited
    omega
  rw [h2] at h1
  exact h1

theorem search_rank (yuse : List ℚ) (iduse : List ℕ) (val : ℚ) (h : ℕ)
    (hs : yuse.Sorted (fun a b => a ≤ b)) (hlen : iduse.length = yuse.length)
    (hn : 1 ≤ yuse.length) (hh : 1 ≤ h) :
    ∃ (s : Search) (p : ℕ),
      expand yuse iduse val h ((lower_bound yuse val : ℤ) - 1) (lower_bound yuse val) = some s ∧
      s.todo = h - yuse.length ∧ (s.r : ℤ) - s.l - 1 = ((min h yuse.length : ℕ) : ℤ) ∧
      -1 ≤ s.l ∧ s.r ≤ yuse.length ∧ s.l < p ∧ p < s.r ∧ ((p : ℤ) = s.l + 1 ∨ p + 1 = s.r) ∧
      iduse[p]? = some s.idx ∧
      (∀ v : ℕ, s.l < v → v < s.r → computed_dist yuse val v ≤ computed_dist yuse val p) ∧
      (∀ u : ℕ, u < yuse.length → ((u : ℤ) ≤ s.l ∨ s.r ≤ u) →
        computed_dist yuse val p ≤ computed_dist yuse val u) ∧
      closer_computed yuse val p < min h yuse.length ∧
      min h yuse.length ≤ within_computed yuse val p := by
  have hs' := sorted_getD yuse hs
  have h0 := swept_start yuse iduse val 0 hs'
  obtain ⟨a1, -, -, a4⟩ := swept_iterate yuse iduse val hs' _ h0 h
  simp only at a4
  have hw : (((advance yuse iduse val)^[h] ⟨0, (lower_bound yuse val : ℤ) - 1,
      lower_bound yuse val⟩).r : ℤ) - ((advance yuse iduse val)^[h]
      ⟨0, (lower_bound yuse val : ℤ) - 1, lower_bound yuse val⟩).l - 1 =
      min (h : ℤ) yuse.length := by
    rw [a4]; congr 1; omega
  rcases a1.last with hl | ⟨p, hp0, hp1, hp2, hp3, hp4⟩
  · omega
  · obtain ⟨c1, c2⟩ := closer_computed_lt yuse iduse val _ a1 p hp1 hp2 hp4
    have hpn : p < iduse.length := by have := a1.hi; omega
    refine ⟨_, p, expand_eq yuse iduse val hlen h, rfl, by simp only; rw [hw]; push_cast; rfl, a1.lo, a1.hi,
      hp1, hp2, hp0, ?_, hp4, ?_, ?_, ?_⟩
    · simp only
      rw [← hp3, List.getElem?_eq_getElem hpn, List.getD_eq_getElem _ 0 hpn]
    · intro u hu hcase
      exact a1.near p u hp1 hp2 hu hcase
    · rw [hw] at c1
      exact_mod_cast c1
    · rw [hw] at c2
      exact_mod_cast c2

/-! ## The usable subset is the masked part of the sorted donors -/

theorem elem_find_from {α : Type} :
    ∀ (mask : List Bool) (pre v : List α), mask.length ≤ v.length →
      elem (pre ++ v) (find_from pre.length mask) = some (masked v mask) := by
  intro mask
  induction mask with
  | nil => intro pre v _; cases v <;> simp [find_from, elem, masked]
  | cons b bs ih =>
    intro pre v hlen
    cases v with
    | nil => simp at hlen
    | cons x xs =>
      have hrec := ih (pre ++ [x]) xs (by simpa using hlen)
      simp only [List.length_append, List.length_singleton, List.append_assoc,
        List.singleton_append] at hrec
      unfold find_from
      cases b with
      | true =>
        simp only [if_true]
        have hx : (pre ++ x :: xs)[pre.length]? = some x := by
          rw [List.getElem?_append_right (le_refl _)]
          simp
        unfold elem
        rw [hx, hrec]
        simp [masked]
      | false =>
        simp only [Bool.false_eq_true, if_false]
        simp [hrec, masked]

theorem elem_find {α : Type} (v : List α) (mask : List Bool) (h : mask.length ≤ v.length) :
    elem v (find mask) = some (masked v mask) := by
  have := elem_find_from mask [] v h
  simpa [find] using this

theorem masked_sublist {α : Type} : ∀ (v : List α) (mask : List Bool),
    (masked v mask).Sublist v
  | [], _ => by simp [masked]
  | _ :: _, [] => by simp [masked]
  | x :: xs, b :: bs => by
    unfold masked
    cases b with
    | true => simpa using (masked_sublist xs bs).cons₂ x
    | false => simpa using (masked_sublist xs bs).cons x

theorem masked_zip {α β : Type} : ∀ (v : List α) (w : List β) (mask : List Bool),
    masked (v.zip w) mask = (masked v mask).zip (masked w mask)
  | [], _, _ => by simp [masked]
  | _ :: _, [], _ => by
    simp only [List.zip_nil_right]
    cases ‹List Bool› <;> simp [masked]
  | _ :: _, _ :: _, [] => by simp [masked]
  | x :: xs, y :: ys, b :: bs => by
    simp only [List.zip_cons_cons]
    unfold masked
    cases b with
    | true => simp [masked_zip xs ys bs]
    | false => simp [masked_zip xs ys bs]

theorem masked_length {α β : Type} : ∀ (v : List α) (w : List β) (mask : List Bool),
    v.length = w.length → (masked v mask).length = (masked w mask).length
  | [], [], _, _ => by simp [masked]
  | [], _ :: _, _, h => by simp at h
  | _ :: _, [], _, h => by simp at h
  | _ :: _, _ :: _, [], _ => by simp [masked]
  | x :: xs, y :: ys, b :: bs, h => by
    have := masked_length xs ys bs (by simpa using h)
    unfold masked
    cases b <;> simp [this]

theorem masked_mem {α : Type} : ∀ (v : List α) (mask : List Bool) (x : α),
    x ∈ masked v mask → ∃ q : ℕ, v[q]? = some x ∧ mask[q]? = some true
  | [], _, x, h => by simp [masked] at h
  | _ :: _, [], x, h => by simp [masked] at h
  | y :: ys, b :: bs, x, h => by
    unfold masked at h
    cases b with
    | true =>
      simp only [if_true, List.mem_cons] at h
      rcases h with rfl | h
      · exact ⟨0, by simp, by simp⟩
      · obtain ⟨q, h1, h2⟩ := masked_mem ys bs x h
        exact ⟨q + 1, by simpa using h1, by simpa using h2⟩
    | false =>
      simp only [Bool.false_eq_true, if_false] at h
      obtain ⟨q, h1, h2⟩ := masked_mem ys bs x h
      exact ⟨q + 1, by simpa using h1, by simpa using h2⟩

theorem elem_getElem? {α : Type} (v : List α) :
    ∀ (js : List ℕ) (xs : List α), elem v js = some xs →
      ∀ (q j : ℕ), js[q]? = some j → xs[q]? = v[j]?
  | [], xs, _, q, j, hq => by simp at hq
  | i :: js, xs, h, q, j, hq => by
    unfold elem at h
    cases hi : v[i]? with
    | none => simp [hi] at h
    | some x =>
      cases hr : elem v js with
      | none => simp [hi, hr] at h
      | some ys =>
        simp only [hi, hr, Option.some.injEq] at h
        subst h
        cases q with
        | zero =>
          simp only [List.getElem?_cons_zero, Option.some.injEq] at hq
          subst hq
          simpa using hi.symm
        | succ q =>
          simp only [List.getElem?_cons_succ] at hq ⊢
          exact elem_getElem? v js ys hr q j hq

theorem elem_eq_map (v : List ℚ) (js : List ℕ) (xs : List ℚ) (h : elem v js = some xs) :
    xs = js.map (fun j => v.getD j 0) := by
  obtain ⟨h1, h2, -⟩ := elem_eq_some v js xs h
  apply List.ext_getElem?
  intro q
  by_cases hq : q < js.length
  · have hj := h2 js[q] (List.getElem_mem _)
    rw [elem_getElem? v js xs h q js[q] (List.getElem?_eq_getElem hq)]
    simp [List.getElem?_eq_getElem hq, List.getElem?_eq_getElem hj,
      List.getD_eq_getElem _ 0 hj]
  · rw [List.getElem?_eq_none (by omega), List.getElem?_eq_none (by simp; omega)]

theorem usable_eq_masked (ysort : List ℚ) (id : List ℕ) (ytrue : List ℚ) (c : ℚ)
    (yuse : List ℚ) (iduse : List ℕ) (hlen : ysort.length = id.length)
    (h : usable ysort id ytrue c = some (yuse, iduse)) :
    ∃ yt, elem ytrue id = some yt ∧ yt.length = id.length ∧
      yuse = masked ysort (yt.map (fun y => decide (y ≠ ((to_int c : ℤ) : ℚ)))) ∧
      iduse = masked id (yt.map (fun y => decide (y ≠ ((to_int c : ℤ) : ℚ)))) := by
  unfold usable at h
  cases hyt : elem ytrue id with
  | none => simp [hyt] at h
  | some yt =>
    have hl := (elem_eq_some _ _ _ hyt).1
    simp only [hyt] at h
    rw [elem_find ysort _ (by simp [hl, hlen]), elem_find id _ (by simp [hl])] at h
    simp only [Option.some.injEq, Prod.mk.injEq] at h
    exact ⟨yt, rfl, hl, h.1.symm, h.2.symm⟩

theorem find_from_sorted (mask : List Bool) :
    ∀ start : ℕ, (find_from start mask).Sorted (fun a b => a < b) := by
  induction mask with
  | nil => intro start; simp [find_from]
  | cons b bs ih =>
    intro start
    unfold find_from
    cases b with
    | true =>
      simp only [if_true, List.sorted_cons]
      refine ⟨fun j hj => ?_, ih (start + 1)⟩
      have := (find_from_mem bs (start + 1) j hj).1
      omega
    | false => simpa using ih (start + 1)

theorem sort_index_sorted (v : List ℚ) :
    ((sort_index v).map (fun j => v.getD j 0)).Sorted (fun a b => a ≤ b) := by
  haveI : IsTotal ℕ (fun a b => v.getD a 0 ≤ v.getD b 0) := ⟨fun a b => le_total _ _⟩
  haveI : IsTrans ℕ (fun a b => v.getD a 0 ≤ v.getD b 0) := ⟨fun a b c h1 h2 => le_trans h1 h2⟩
  have h := List.sorted_insertionSort (fun a b => v.getD a 0 ≤ v.getD b 0) (List.range v.length)
  unfold sort_index
  exact List.pairwise_map.mpr h

theorem sorted_donors_eq_some (sample : Sample) (yhatobs : List ℚ) (id : List ℕ)
    (ysort : List ℚ) (h : sorted_donors sample yhatobs = some (id, ysort)) :
    ∃ yshuf, elem yhatobs ((sample.shuffle yhatobs.length).map (fun j => j - 1)) = some yshuf ∧
      id = sort_index yshuf ∧ elem yshuf id = some ysort ∧ ysort.length = id.length ∧
      id.Nodup ∧ ysort.Sorted (fun a b => a ≤ b) := by
  simp only [sorted_donors] at h
  cases h1 : elem yhatobs ((sample.shuffle yhatobs.length).map (fun j => j - 1)) with
  | none => simp [h1] at h
  | some yshuf =>
    simp only [h1] at h
    cases h2 : elem yshuf (sort_index yshuf) with
    | none => simp [h2] at h
    | some ys =>
      simp only [h2, Option.some.injEq, Prod.mk.injEq] at h
      obtain ⟨rfl, rfl⟩ := h
      refine ⟨yshuf, rfl, rfl, h2, (elem_eq_some _ _ _ h2).1, ?_, ?_⟩
      · exact (sort_index_perm yshuf).nodup_iff.mpr (List.nodup_range _)
      · rw [elem_eq_map _ _ _ h2]
        exact sort_index_sorted yshuf

theorem matchindex_dev_sorted_donors (sample : Sample) (yhatobs yhatmis : List ℚ) (k : ℤ)
    (cond ytrue : List ℚ) (res : List ℕ)
    (h : matchindex_dev sample yhatobs yhatmis k cond ytrue = some res) :
    ∃ id ysort idx, sorted_donors sample yhatobs = some (id, ysort) ∧
      targets ysort id ytrue yhatmis cond
        (sample.draw (clamp_k k yhatobs.length) yhatmis.length) = some idx ∧
      res = idx.map (fun j => j + 1) := by
  obtain ⟨yshuf, ysort, idx, h1, h2, h3, h4⟩ := matchindex_dev_eq_some _ _ _ _ _ _ _ h
  refine ⟨sort_index yshuf, ysort, idx, ?_, h3, h4⟩
  simp only [sorted_donors, h1, h2]

/-! ## Further facts used by the claims -/

theorem trunc_eq (c : ℚ) : trunc c = if 0 ≤ c then ⌊c⌋ else ⌈c⌉ := by
  unfold trunc
  by_cases h : 0 ≤ c
  · rw [if_pos h, Rat.floor_def]
    exact Int.tdiv_eq_ediv (Rat.num_nonneg.mpr h) (Int.ofNat_nonneg _)
  · rw [if_neg h]
    have hneg : 0 ≤ -c := by linarith [not_le.mp h]
    have h1 : (-c.num).tdiv c.den = (-c.num) / c.den :=
      Int.tdiv_eq_ediv (by have := Rat.num_nonneg.mpr hneg; simpa using this)
        (Int.ofNat_nonneg _)
    have h2 : ⌊-c⌋ = (-c.num) / (c.den : ℤ) := by
      rw [Rat.floor_def]; simp
    have h3 : ⌈c⌉ = -⌊-c⌋ := by rw [Int.floor_neg]; simp
    rw [h3, h2, ← h1, Int.neg_tdiv]
    simp

theorem to_int_of_range (c : ℚ) (h : -2147483648 ≤ trunc c ∧ trunc c ≤ 2147483647) :
    to_int c = trunc c := by
  unfold to_int
  rw [if_pos h]

theorem to_int_of_trunc_eq (c c' : ℚ) (h : trunc c = trunc c') : to_int c = to_int c' := by
  unfold to_int
  rw [h]

theorem within_le_closer (yuse : List ℚ) (val : ℚ) (p q : ℕ)
    (h : computed_dist yuse val p < computed_dist yuse val q) :
    within_computed yuse val p ≤ closer_computed yuse val q := by
  have e1 : closer_computed yuse val q = ((Finset.range yuse.length).filter
      (fun i => computed_dist yuse val i < computed_dist yuse val q)).card := rfl
  have e2 : within_computed yuse val p = ((Finset.range yuse.length).filter
      (fun i => computed_dist yuse val i ≤ computed_dist yuse val p)).card := rfl
  rw [e1, e2]
  apply Finset.card_le_card
  intro i hi
  simp only [Finset.mem_filter, Finset.mem_range] at hi ⊢
  exact ⟨hi.1, lt_of_le_of_lt hi.2 h⟩

theorem match_one_eq (ysort : List ℚ) (id : List ℕ) (ytrue : List ℚ) (val c : ℚ) (hi : ℕ)
    (yuse : List ℚ) (iduse : List ℕ) (hu : usable ysort id ytrue c = some (yuse, iduse)) :
    match_one ysort id ytrue val c hi =
      (expand yuse iduse val hi ((lower_bound yuse val : ℤ) - 1) (lower_bound yuse val)).map
        (fun s => s.idx) := by
  simp only [match_one, hu]
  cases expand yuse iduse val hi ((lower_bound yuse val : ℤ) - 1) (lower_bound yuse val) <;> rfl

theorem usable_sorted (ysort : List ℚ) (id : List ℕ) (ytrue : List ℚ) (c : ℚ)
    (yuse : List ℚ) (iduse : List ℕ) (hlen : ysort.length = id.length)
    (hsorted : ysort.Sorted (fun a b => a ≤ b)) (hnd : id.Nodup)
    (hu : usable ysort id ytrue c = some (yuse, iduse)) :
    yuse.Sorted (fun a b => a ≤ b) ∧ iduse.Nodup ∧ iduse.length = yuse.length := by
  obtain ⟨yt, -, -, rfl, rfl⟩ := usable_eq_masked ysort id ytrue c yuse iduse hlen hu
  exact ⟨hsorted.sublist (masked_sublist _ _), hnd.sublist (masked_sublist _ _),
    masked_length _ _ _ hlen.symm⟩

theorem advance_first_exact (yuse : List ℚ) (iduse : List ℕ) (val : ℚ) (idx : ℕ)
    (hr : lower_bound yuse val < yuse.length)
    (hval : yuse.getD (lower_bound yuse val) 0 = val) :
    advance yuse iduse val ⟨idx, (lower_bound yuse val : ℤ) - 1, lower_bound yuse val⟩ =
      ⟨iduse.getD (lower_bound yuse val) 0, (lower_bound yuse val : ℤ) - 1,
        lower_bound yuse val + 1⟩ := by
  rcases advance_open yuse iduse val
      ⟨idx, (lower_bound yuse val : ℤ) - 1, lower_bound yuse val⟩ (Or.inr hr) with
    ⟨-, -, h0, -, hcmp⟩ | ⟨e1, e2, -, e3, -⟩
  · simp only at h0 hcmp
    have hb := lower_bound_below yuse val ((lower_bound yuse val : ℤ) - 1).toNat (by omega)
    have := hcmp hr
    rw [hval] at this
    have hge := fl_mono (val - val) (val - yuse.getD ((lower_bound yuse val : ℤ) - 1).toNat 0)
      (by simp) (by linarith)
    exact absurd this (not_lt.mpr hge)
  · simp only at e1 e2 e3
    cases hadv : advance yuse iduse val
      ⟨idx, (lower_bound yuse val : ℤ) - 1, lower_bound yuse val⟩ with
    | mk a b d =>
      rw [hadv] at e1 e2 e3
      simp only at e1 e2 e3
      rw [e1, e2, e3]

theorem search_distinct (yuse : List ℚ) (iduse : List ℕ) (val : ℚ) (h h' : ℕ)
    (hs : yuse.Sorted (fun a b => a ≤ b)) (hlen : iduse.length = yuse.length)
    (hnd : iduse.Nodup) (h1 : 1 ≤ h) (h2 : h < h') (h3 : h' ≤ yuse.length) :
    ∃ s s' : Search,
      expand yuse iduse val h ((lower_bound yuse val : ℤ) - 1) (lower_bound yuse val) = some s ∧
      expand yuse iduse val h' ((lower_bound yuse val : ℤ) - 1) (lower_bound yuse val) =
        some s' ∧
      s.idx ≠ s'.idx := by
  have hs' := sorted_getD yuse hs
  have h0 := swept_start yuse iduse val 0 hs'
  refine ⟨_, _, expand_eq yuse iduse val hlen h, expand_eq yuse iduse val hlen h', ?_⟩
  simp only
  -- the state after `h` steps
  obtain ⟨a1, -, -, a4⟩ := swept_iterate yuse iduse val hs' _ h0 h
  simp only at a4
  -- the state after `h' - 1` steps, reached from it
  obtain ⟨b1, b2, b3, -⟩ := swept_iterate yuse iduse val hs' _ a1 (h' - 1 - h)
  rw [← Function.iterate_add_apply] at b1 b2 b3
  have hsum : h' - 1 - h + h = h' - 1 := by omega
  rw [hsum] at b1 b2 b3
  obtain ⟨-, -, -, d4⟩ := swept_iterate yuse iduse val hs' _ h0 (h' - 1)
  simp only at d4
  have hopen : 0 ≤ ((advance yuse iduse val)^[h' - 1]
      ⟨0, (lower_bound yuse val : ℤ) - 1, lower_bound yuse val⟩).l ∨
      ((advance yuse iduse val)^[h' - 1]
      ⟨0, (lower_bound yuse val : ℤ) - 1, lower_bound yuse val⟩).r < yuse.length := by
    by_contra hc
    push_neg at hc
    have := b1.lo
    have := b1.hi
    omega
  obtain ⟨e1, -, -, -, p', hp'1, hp'2, hp'3, hp'4⟩ :=
    swept_advance yuse iduse val _ hs' b1 hopen
  rw [← Function.iterate_succ_apply' (advance yuse iduse val)] at e1 hp'2 hp'3 hp'4
  have hsucc : (h' - 1).succ = h' := by omega
  rw [hsucc] at e1 hp'2 hp'3 hp'4
  rcases a1.last with hl | ⟨p, -, hp1, hp2, hp3, -⟩
  · omega
  · rw [← hp3, ← hp'4]
    have hpn : p < iduse.length := by have := a1.hi; omega
    have hp'n : p' < iduse.length := by have := e1.hi; omega
    rw [List.getD_eq_getElem _ 0 hpn, List.getD_eq_getElem _ 0 hp'n]
    intro heq
    have := (List.Nodup.getElem_inj_iff hnd).mp heq
    omega

theorem match_one_distinct (ysort : List ℚ) (id : List ℕ) (ytrue : List ℚ) (val c : ℚ)
    (yuse : List ℚ) (iduse : List ℕ) (hlen : ysort.length = id.length)
    (hsorted : ysort.Sorted (fun a b => a ≤ b)) (hnd : id.Nodup)
    (hu : usable ysort id ytrue c = some (yuse, iduse)) (h h' : ℕ)
    (h1 : 1 ≤ h) (h2 : h ≤ yuse.length) (h3 : 1 ≤ h') (h4 : h' ≤ yuse.length) (hne : h ≠ h') :
    ∃ x x' : ℕ, match_one ysort id ytrue val c h = some x ∧
      match_one ysort id ytrue val c h' = some x' ∧ x ≠ x' := by
  obtain ⟨u1, u2, u3⟩ := usable_sorted ysort id ytrue c yuse iduse hlen hsorted hnd hu
  rw [match_one_eq ysort id ytrue val c h yuse iduse hu,
    match_one_eq ysort id ytrue val c h' yuse iduse hu]
  rcases Nat.lt_or_gt_of_ne hne with hlt | hgt
  · obtain ⟨s, s', e1, e2, e3⟩ := search_distinct yuse iduse val h h' u1 u3 u2 h1 hlt h4
    exact ⟨s.idx, s'.idx, by rw [e1]; rfl, by rw [e2]; rfl, e3⟩
  · obtain ⟨s', s, e1, e2, e3⟩ := search_distinct yuse iduse val h' h u1 u3 u2 h3 hgt h2
    exact ⟨s.idx, s'.idx, by rw [e2]; rfl, by rw [e1]; rfl, fun hc => e3 hc.symm⟩

/-! ## Entries beyond the lengths in use are not read -/

theorem elem_take {α : Type} (v : List α) (n : ℕ) :
    ∀ js : List ℕ, (∀ j ∈ js, j < n) → elem (v.take n) js = elem v js
  | [], _ => rfl
  | j :: js, h => by
    have hj : j < n := h j (List.mem_cons_self _ _)
    have hrec := elem_take v n js (fun i hi => h i (List.mem_cons_of_mem _ hi))
    unfold elem
    rw [List.getElem?_take_of_lt hj, hrec]

theorem usable_take (ysort : List ℚ) (id : List ℕ) (ytrue : List ℚ) (c : ℚ) (n : ℕ)
    (h : ∀ j ∈ id, j < n) :
    usable ysort id (ytrue.take n) c = usable ysort id ytrue c := by
  simp only [usable, elem_take ytrue n id h]

theorem targets_take (ysort : List ℚ) (id : List ℕ) (ytrue : List ℚ) (n : ℕ)
    (h : ∀ j ∈ id, j < n) :
    ∀ (vals cs : List ℚ) (his : List ℕ),
      targets ysort id (ytrue.take n) vals (cs.take vals.length) his =
        targets ysort id ytrue vals cs his
  | [], _, _ => by simp [targets]
  | _ :: _, [], _ => by simp [targets]
  | _ :: _, _ :: _, [] => by simp [targets]
  | val :: vals, c :: cs, hi :: his => by
    simp only [List.length_cons, List.take_succ_cons, targets, match_one,
      usable_take ysort id ytrue c n h, targets_take ysort id ytrue n h vals cs his]

theorem matchindex_dev_take (sample : Sample) (yhatobs yhatmis : List ℚ) (k : ℤ)
    (cond ytrue : List ℚ) (hs : IsShuffle (sample.shuffle yhatobs.length) yhatobs.length) :
    matchindex_dev sample yhatobs yhatmis k (cond.take yhatmis.length)
        (ytrue.take yhatobs.length) =
      matchindex_dev sample yhatobs yhatmis k cond ytrue := by
  obtain ⟨yshuf, ysort, hl1, -, g1, g2, h1⟩ :=
    matchindex_dev_eq sample yhatobs yhatmis k cond ytrue hs
  obtain ⟨yshuf', ysort', -, -, e1, e2, h2⟩ :=
    matchindex_dev_eq sample yhatobs yhatmis k (cond.take yhatmis.length)
      (ytrue.take yhatobs.length) hs
  rw [g1, Option.some.injEq] at e1
  subst e1
  rw [g2, Option.some.injEq] at e2
  subst e2
  have hid : ∀ j ∈ sort_index yshuf, j < yhatobs.length := by
    intro j hj
    have := sort_index_lt yshuf j hj
    omega
  rw [h1, h2, targets_take ysort (sort_index yshuf) ytrue yhatobs.length hid]

theorem masked_mem_of {α : Type} : ∀ (v : List α) (mask : List Bool) (q : ℕ) (x : α),
    v[q]? = some x → mask[q]? = some true → x ∈ masked v mask
  | [], _, q, x, h, _ => by simp at h
  | _ :: _, [], q, x, _, h => by simp at h
  | y :: ys, b :: bs, 0, x, h1, h2 => by
    simp only [List.getElem?_cons_zero, Option.some.injEq] at h1 h2
    subst h1 h2
    simp [masked]
  | y :: ys, b :: bs, q + 1, x, h1, h2 => by
    simp only [List.getElem?_cons_succ] at h1 h2
    have := masked_mem_of ys bs q x h1 h2
    unfold masked
    cases b <;> simp [this]

/-! ## The exclusion value as the filter sees it -/

theorem to_int_of_den_one (c : ℚ) (hden : c.den = 1) :
    ((to_int c : ℤ) : ℚ) = c ∨ to_int c = -2147483648 := by
  have ht : trunc c = c.num := by
    unfold trunc
    rw [hden]
    simp
  unfold to_int
  by_cases h : -2147483648 ≤ trunc c ∧ trunc c ≤ 2147483647
  · left
    rw [if_pos h, ht]
    exact Rat.coe_int_num_of_den_eq_one hden
  · right
    rw [if_neg h]

theorem usable_kept (ysort : List ℚ) (id : List ℕ) (ytrue : List ℚ) (c : ℚ)
    (yuse : List ℚ) (iduse : List ℕ) (hlen : ysort.length = id.length)
    (hu : usable ysort id ytrue c = some (yuse, iduse)) :
    (∀ j ∈ iduse, ∃ y, ytrue[j]? = some y ∧ y ≠ ((to_int c : ℤ) : ℚ)) ∧
    (∀ (q j : ℕ) (y : ℚ), id[q]? = some j → ytrue[j]? = some y →
      y ≠ ((to_int c : ℤ) : ℚ) → j ∈ iduse) ∧
    (id.Nodup → ∀ (q j : ℕ), id[q]? = some j →
      ytrue[j]? = some ((to_int c : ℤ) : ℚ) → j ∉ iduse) := by
  obtain ⟨yt, m1, m2, -, m4⟩ := usable_eq_masked ysort id ytrue c yuse iduse hlen hu
  have hkept : ∀ j ∈ iduse, ∃ (q : ℕ) (y : ℚ), id[q]? = some j ∧ ytrue[j]? = some y ∧
      y ≠ ((to_int c : ℤ) : ℚ) := by
    intro j hj
    rw [m4] at hj
    obtain ⟨q, q1, q2⟩ := masked_mem _ _ _ hj
    rw [List.getElem?_map] at q2
    cases hy : yt[q]? with
    | none => rw [hy] at q2; simp at q2
    | some y =>
      rw [hy] at q2
      simp only [Option.map_some', Option.some.injEq, decide_eq_true_eq] at q2
      have hyt := elem_getElem? ytrue id yt m1 q j q1
      exact ⟨q, y, q1, by rw [← hyt, hy], q2⟩
  refine ⟨?_, ?_, ?_⟩
  · intro j hj
    obtain ⟨q, y, -, h2, h3⟩ := hkept j hj
    exact ⟨y, h2, h3⟩
  · intro q j y hq hy hne
    rw [m4]
    apply masked_mem_of id _ q j hq
    have hyt := elem_getElem? ytrue id yt m1 q j hq
    rw [List.getElem?_map, hyt, hy]
    simp [hne]
  · intro hnd q j hq hy hj
    obtain ⟨q', y, h1, h2, h3⟩ := hkept j hj
    rw [hy, Option.some.injEq] at h2
    exact h3 h2.symm

/-- For a target whose exclusion value `c` is an integer that the conversion
to `int` returns unchanged, with rank at least `1` and a filter that keeps at
least one position, the returned entry is a 1-based index of `ytrue` whose
true value differs from `c`. -/
theorem index_valid_of_int_cond (sample : Sample) (yhatobs yhatmis : List ℚ) (k : ℤ)
    (cond ytrue : List ℚ) (res : List ℕ) (i : ℕ) (c : ℚ) (rank : ℕ) (id : List ℕ)
    (ysort yuse : List ℚ) (iduse : List ℕ)
    (hres : matchindex_dev sample yhatobs yhatmis k cond ytrue = some res)
    (hd : sorted_donors sample yhatobs = some (id, ysort))
    (hi : i < yhatmis.length) (hc : cond[i]? = some c) (hint : ((to_int c : ℤ) : ℚ) = c)
    (hh : (sample.draw (clamp_k k yhatobs.length) yhatmis.length)[i]? = some rank)
    (hrank : 1 ≤ rank)
    (hu : usable ysort id ytrue c = some (yuse, iduse)) (hne : 1 ≤ yuse.length) :
    ∃ (j : ℕ) (y : ℚ), res[i]? = some j ∧ donor_at ytrue j = some y ∧ y ≠ c := by
  obtain ⟨id', ysort', idx, d1, d2, rfl⟩ := matchindex_dev_sorted_donors _ _ _ _ _ _ _ hres
  rw [hd, Option.some.injEq, Prod.mk.injEq] at d1
  obtain ⟨rfl, rfl⟩ := d1
  obtain ⟨yshuf, -, -, -, s1, s2, s3⟩ := sorted_donors_eq_some sample yhatobs id ysort hd
  obtain ⟨u1, -, u3⟩ := usable_sorted ysort id ytrue c yuse iduse s1 s3 s2 hu
  obtain ⟨s, p, a1, -, -, -, -, -, -, -, a9, -, -, -, -⟩ :=
    search_rank yuse iduse yhatmis[i] rank u1 u3 hne hrank
  obtain ⟨-, -, -, t4⟩ := targets_eq_some _ _ _ _ _ _ _ d2
  have hm := t4 i yhatmis[i] c rank (List.getElem?_eq_getElem _) hc hh
  rw [match_one_eq ysort id ytrue yhatmis[i] c rank yuse iduse hu, a1] at hm
  obtain ⟨y, hy1, hy2⟩ := (usable_kept ysort id ytrue c yuse iduse s1 hu).1 s.idx
    (List.getElem?_mem a9)
  refine ⟨s.idx + 1, y, ?_, ?_, ?_⟩
  · rw [List.getElem?_map, ← hm]; rfl
  · simp only [donor_at, Nat.le_add_left, if_true, Nat.add_sub_cancel]
    exact hy1
  · rw [← hint]; exact hy2

/-! ## The claims -/

/-- C1 (k=1 correctness) fails on the code.  With donors `[0, 10]`, the shuffle
`2, 1`, one target of value `1`, `k = 1` and nothing excluded, the call returns
index `2`.  Both donors are eligible, donor `1` (value `0`) is strictly closer
to the target than donor `2` (value `10`): the returned number is a position in
the shuffled vector, not an index into `yhatobs`. -/
theorem k1_returns_shuffled_position :
    matchindex_dev (fixed_sample [2, 1] [1]) [0, 10] [1] 1 [99] [1, 2] = some [2] ∧
    eligible_donors [1, 2] 99 = [1, 2] ∧
    donor_at [0, 10] 2 = some 10 ∧ donor_at [0, 10] 1 = some 0 ∧
    closer_count [0, 10] [1, 2] 1 99 2 = 1 := by
  decide!

/-- C2 (index validity) fails on the code.  With true values `[5/2, 2]` and the
exclusion value `5/2`, donor `2` is eligible, yet the call returns donor `1`,
whose true value is the excluded `5/2`: the filter compares with `int ex = 2`
and so drops donor `2` instead. -/
theorem excluded_donor_returned :
    matchindex_dev (fixed_sample [1, 2] [1]) [0, 1] [0] 1 [5 / 2] [5 / 2, 2] = some [1] ∧
    donor_at [5 / 2, 2] 1 = some (5 / 2) ∧
    eligible_donors [5 / 2, 2] (5 / 2) = [2] := by
  decide!

/-- C3 (neighbour-rank bound) fails on the code.  With donors `[0, 10, 20]`,
the shuffle `2, 3, 1`, one target of value `1`, `k = 2`, rank `1` and nothing
excluded, the call returns index `3` (value `20`); two of the three eligible
donors are strictly closer, which is not fewer than `min(k, nEligible) = 2`. -/
theorem rank_bound_broken_by_shuffle :
    matchindex_dev (fixed_sample [2, 3, 1] [1]) [0, 10, 20] [1] 2 [99] [1, 2, 3] = some [3] ∧
    (eligible_donors [1, 2, 3] 99).length = 3 ∧
    closer_count [0, 10, 20] [1, 2, 3] 1 99 3 = 2 ∧
    ¬ closer_count [0, 10, 20] [1, 2, 3] 1 99 3 < min 2 (eligible_donors [1, 2, 3] 99).length := by
  decide!

/-- C4 (range bound).  For at least one donor, any `k`, any exclusion values,
any shuffle of `1..nobs` and any `nmis` ranks, the call returns a vector with
one entry per target and every entry is an index in `[1, nobs]`. -/
theorem range_bound (sample : Sample) (yhatobs yhatmis : List ℚ) (k : ℤ) (cond ytrue : List ℚ)
    (hn : 1 ≤ yhatobs.length)
    (hs : IsShuffle (sample.shuffle yhatobs.length) yhatobs.length)
    (hh : (sample.draw (clamp_k k yhatobs.length) yhatmis.length).length = yhatmis.length)
    (hc : cond.length = yhatmis.length) (ht : ytrue.length = yhatobs.length) :
    ∃ res, matchindex_dev sample yhatobs yhatmis k cond ytrue = some res ∧
      res.length = yhatmis.length ∧ ∀ x ∈ res, 1 ≤ x ∧ x ≤ yhatobs.length := by
  obtain ⟨res, h1, h2, h3⟩ := matchindex_dev_isSome sample yhatobs yhatmis k cond ytrue hs
    (by omega) (by omega) (by omega)
  refine ⟨res, h1, h2, fun x hx => ?_⟩
  have := h3 x hx
  omega

/-- Witness of C4: two donors that are both excluded for the first target,
ranks `3` and `7` beyond the pool. -/
theorem range_bound_witness :
    (1 ≤ [(0 : ℚ), 10].length ∧ IsShuffle [2, 1] 2) ∧
    ∃ res, matchindex_dev (fixed_sample [2, 1] [3, 7]) [0, 10] [1, 4] 5 [1, 0] [1, 1] = some res ∧
      res.length = [(1 : ℚ), 4].length ∧ ∀ x ∈ res, 1 ≤ x ∧ x ≤ [(0 : ℚ), 10].length :=
  ⟨⟨by decide, by decide⟩,
    range_bound (fixed_sample [2, 1] [3, 7]) [0, 10] [1, 4] 5 [1, 0] [1, 1]
      (by decide) (by decide) rfl rfl rfl⟩

/-- C5 (exclusion re-run) fails on the code.  With donors `[0, 10, 20]`, true
values `[1, 2, 3]`, the shuffle `2, 3, 1`, one target of value `9` and `k = 1`,
the first call returns `b = 1`; the call repeated with `cond = ytrue[b] = 1`
returns index `3` (value `20`), while the eligible donor `2` (value `10`) is
strictly closer to the target. -/
theorem rerun_not_nearest_eligible :
    matchindex_dev (fixed_sample [2, 3, 1] [1]) [0, 10, 20] [9] 1 [99] [1, 2, 3] = some [1] ∧
    donor_at [1, 2, 3] 1 = some 1 ∧
    matchindex_dev (fixed_sample [2, 3, 1] [1]) [0, 10, 20] [9] 1 [1] [1, 2, 3] = some [3] ∧
    eligible_donors [1, 2, 3] 1 = [2, 3] ∧
    closer_count [0, 10, 20] [1, 2, 3] 9 1 3 = 1 := by
  decide!

/-- C6 as stated fails: already for the identity shuffle the donor values at
the returned indices are `-5, -5, 0, 0, 5, 0, 5`; the target `-2` is matched
to the donor of value `0` (distance `2`), not to `-5` (distance `3`). -/
theorem scenario_k1_target_minus2 :
    (matchindex_dev (fixed_sample [1, 2, 3, 4, 5] [1, 1, 1, 1, 1, 1, 1]) [-5, 5, 0, 10, 12]
      [-6, -4, 0, 2, 4, -2, 6] 1 [99, 99, 99, 99, 99, 99, 99] [-5, 5, 0, 10, 12]).map
        (List.map (donor_at [-5, 5, 0, 10, 12])) =
      some [some (-5), some (-5), some 0, some 0, some 5, some 0, some 5] ∧
    (matchindex_dev (fixed_sample [1, 2, 3, 4, 5] [1, 1, 1, 1, 1, 1, 1]) [-5, 5, 0, 10, 12]
      [-6, -4, 0, 2, 4, -2, 6] 1 [99, 99, 99, 99, 99, 99, 99] [-5, 5, 0, 10, 12]).map
        (List.map (donor_at [-5, 5, 0, 10, 12])) ≠
      some [some (-5), some (-5), some 0, some 0, some 5, some (-5), some 5] := by
  decide!

/-- C6 amended.  With `yhatobs = ytrue = [-5, 5, 0, 10, 12]`,
`yhatmis = [-6, -4, 0, 2, 4, -2, 6]`, `k = 1`, the identity shuffle and
integer exclusion values that equal no donor value, the call returns
`[1, 1, 3, 3, 2, 3, 2]`, whose donor values are `-5, -5, 0, 0, 5, 0, 5`. -/
theorem scenario_k1_values (sample : Sample) (cond : List ℚ)
    (hs : sample.shuffle 5 = [1, 2, 3, 4, 5])
    (hl : (sample.draw 1 7).length = 7) (hr : ∀ x ∈ sample.draw 1 7, 1 ≤ x ∧ x ≤ 1)
    (hc : cond.length = 7)
    (hex : ∀ c ∈ cond, c.den = 1 ∧ c ∉ [(-5 : ℚ), 5, 0, 10, 12]) :
    matchindex_dev sample [-5, 5, 0, 10, 12] [-6, -4, 0, 2, 4, -2, 6] 1 cond
        [-5, 5, 0, 10, 12] = some [1, 1, 3, 3, 2, 3, 2] ∧
    List.map (donor_at [-5, 5, 0, 10, 12]) [1, 1, 3, 3, 2, 3, 2] =
      [some (-5), some (-5), some 0, some 0, some 5, some 0, some 5] := by
  refine ⟨?_, by decide!⟩
  have hck : clamp_k 1 (([(-5 : ℚ), 5, 0, 10, 12].length : ℕ) : ℤ) = 1 := by decide
  have h1 : matchindex_dev sample [-5, 5, 0, 10, 12] [-6, -4, 0, 2, 4, -2, 6] 1 cond
      [-5, 5, 0, 10, 12] =
      matchindex_dev (fixed_sample [1, 2, 3, 4, 5] [1, 1, 1, 1, 1, 1, 1]) [-5, 5, 0, 10, 12]
        [-6, -4, 0, 2, 4, -2, 6] 1 cond [-5, 5, 0, 10, 12] := by
    apply matchindex_dev_congr_sample
    · exact hs
    · rw [hck]
      exact ranks_k1 _ hl hr
  have hmin : ∀ y ∈ [(-5 : ℚ), 5, 0, 10, 12], y ≠ (((-2147483648 : ℤ)) : ℚ) := by decide!
  have h2 : List.Forall₂ (fun c c' =>
      (∀ y ∈ [(-5 : ℚ), 5, 0, 10, 12], y ≠ ((to_int c : ℤ) : ℚ)) ∧
      ∀ y ∈ [(-5 : ℚ), 5, 0, 10, 12], y ≠ ((to_int c' : ℤ) : ℚ)) cond
      [99, 99, 99, 99, 99, 99, 99] := by
    rw [List.forall₂_iff_get]
    refine ⟨by simpa using hc, ?_⟩
    intro i hi1 hi2
    have hmem := hex (cond.get ⟨i, hi1⟩) (List.get_mem _ _ _)
    constructor
    · intro y hy heq
      rcases to_int_of_den_one _ hmem.1 with hcase | hcase
      · rw [hcase] at heq
        exact hmem.2 (heq ▸ hy)
      · rw [hcase] at heq
        exact hmin y hy heq
    · intro y hy heq
      have h99 : ∀ z ∈ [(99 : ℚ), 99, 99, 99, 99, 99, 99], z = 99 := by decide!
      rw [h99 _ (List.get_mem _ _ _)] at heq
      have : ∀ y ∈ [(-5 : ℚ), 5, 0, 10, 12], y ≠ ((to_int 99 : ℤ) : ℚ) := by decide!
      exact this y hy heq
  rw [h1, matchindex_dev_congr_cond _ _ _ _ _ _ _ h2]
  decide!

/-- Witness of the amended C6 with seven different integer exclusion values,
one of them beyond the range of `int`. -/
theorem scenario_k1_values_witness :
    (∀ c ∈ [(99 : ℚ), -7, 6, 7, 8, 100, 3000000000],
      c.den = 1 ∧ c ∉ [(-5 : ℚ), 5, 0, 10, 12]) ∧
    matchindex_dev (fixed_sample [1, 2, 3, 4, 5] [1, 1, 1, 1, 1, 1, 1]) [-5, 5, 0, 10, 12]
      [-6, -4, 0, 2, 4, -2, 6] 1 [99, -7, 6, 7, 8, 100, 3000000000] [-5, 5, 0, 10, 12] =
      some [1, 1, 3, 3, 2, 3, 2] :=
  ⟨by decide!,
    (scenario_k1_values (fixed_sample [1, 2, 3, 4, 5] [1, 1, 1, 1, 1, 1, 1])
      [99, -7, 6, 7, 8, 100, 3000000000] rfl rfl (by decide) rfl (by decide!)).1⟩

/-- C7 (exact-equality exclusion) fails on the code.  The exclusion value `5/2`
equals no donor true value of `[2, 3]`, yet the donor with true value `2` is
filtered out and one usable donor remains of two: the comparison is made
with `int ex = 2`. -/
theorem fractional_exclusion_filters_a_donor :
    (5 / 2 : ℚ) ∉ [(2 : ℚ), 3] ∧
    elem [0, 1] (sort_index [0, 1]) = some [0, 1] ∧
    usable [0, 1] (sort_index [0, 1]) [2, 3] (5 / 2) = some ([1], [1]) := by
  decide!

/-- C8 (k clamping).  For `nobs >= 1` the size handed to the rank draw is
`max(1, min(k, nobs))`: it is `k` for `1 <= k <= nobs`, `1` for `k < 1` and
`nobs` for `k > nobs`; the call depends on `sample` only through the shuffle
and the ranks drawn with that size, and no `k` makes a well-formed call
abort. -/
theorem k_clamping (k : ℤ) (nobs : ℕ) (hn : 1 ≤ nobs) :
    clamp_k k nobs = max 1 (min k nobs) ∧
    (1 ≤ k → k ≤ nobs → clamp_k k nobs = k) ∧
    (k < 1 → clamp_k k nobs = 1) ∧
    ((nobs : ℤ) < k → clamp_k k nobs = nobs) ∧
    (∀ (sample : Sample) (yhatobs yhatmis cond ytrue : List ℚ), yhatobs.length = nobs →
      matchindex_dev sample yhatobs yhatmis k cond ytrue =
        matchindex_dev
          (fixed_sample (sample.shuffle nobs) (sample.draw (max 1 (min k nobs)) yhatmis.length))
          yhatobs yhatmis k cond ytrue) ∧
    (∀ (sample : Sample) (yhatobs yhatmis cond ytrue : List ℚ), yhatobs.length = nobs →
      IsShuffle (sample.shuffle nobs) nobs →
      (sample.draw (max 1 (min k nobs)) yhatmis.length).length = yhatmis.length →
      cond.length = yhatmis.length → ytrue.length = nobs →
      matchindex_dev sample yhatobs yhatmis k cond ytrue ≠ none) := by
  have hn' : (1 : ℤ) ≤ nobs := by exact_mod_cast hn
  have hc := clamp_k_eq k nobs hn'
  refine ⟨hc, ?_, ?_, ?_, ?_, ?_⟩
  · intro h1 h2; rw [hc]; omega
  · intro h1; rw [hc]; omega
  · intro h1; rw [hc]; omega
  · intro sample yhatobs yhatmis cond ytrue hlen
    subst hlen
    apply matchindex_dev_congr_sample
    · rfl
    · simp only [fixed_sample, hc]
  · intro sample yhatobs yhatmis cond ytrue hlen hs hh hcl htl
    subst hlen
    rw [← hc] at hh
    obtain ⟨res, hres, -, -⟩ := matchindex_dev_isSome sample yhatobs yhatmis k cond ytrue hs
      (by omega) (by omega) (by omega)
    rw [hres]
    exact Option.some_ne_none _

/-- Witness of C8: `k = 9` with two donors. -/
theorem k_clamping_witness :
    1 ≤ 2 ∧ clamp_k 9 ((2 : ℕ) : ℤ) = max 1 (min 9 ((2 : ℕ) : ℤ)) ∧
    matchindex_dev (fixed_sample [2, 1] [2]) [0, 10] [1] 9 [99] [1, 2] ≠ none :=
  ⟨by decide, (k_clamping 9 2 (by decide)).1,
    (k_clamping 9 2 (by decide)).2.2.2.2.2 (fixed_sample [2, 1] [2]) [0, 10] [1] [99] [1, 2]
      rfl (by decide) rfl rfl rfl⟩

/-- C9 (per-target independence and order).  Two calls on the same donors
with the same shuffle that agree at position `i` on the target value, the
exclusion value and the rank return the same entry at position `i`. -/
theorem per_target_independence (sample sample' : Sample) (yhatobs ytrue : List ℚ)
    (yhatmis yhatmis' cond cond' : List ℚ) (k k' : ℤ) (res res' : List ℕ) (i : ℕ)
    (hshuf : sample.shuffle yhatobs.length = sample'.shuffle yhatobs.length)
    (hres : matchindex_dev sample yhatobs yhatmis k cond ytrue = some res)
    (hres' : matchindex_dev sample' yhatobs yhatmis' k' cond' ytrue = some res')
    (hi : i < yhatmis.length)
    (hval : yhatmis[i]? = yhatmis'[i]?) (hcond : cond[i]? = cond'[i]?)
    (hrank : (sample.draw (clamp_k k yhatobs.length) yhatmis.length)[i]? =
      (sample'.draw (clamp_k k' yhatobs.length) yhatmis'.length)[i]?) :
    res[i]? = res'[i]? := by
  obtain ⟨yshuf, ysort, idx, a1, a2, a3, rfl⟩ := matchindex_dev_eq_some _ _ _ _ _ _ _ hres
  obtain ⟨yshuf', ysort', idx', b1, b2, b3, rfl⟩ := matchindex_dev_eq_some _ _ _ _ _ _ _ hres'
  rw [← hshuf, a1, Option.some.injEq] at b1
  subst b1
  rw [a2, Option.some.injEq] at b2
  subst b2
  obtain ⟨-, c2, c3, c4⟩ := targets_eq_some _ _ _ _ _ _ _ a3
  obtain ⟨-, -, -, d4⟩ := targets_eq_some _ _ _ _ _ _ _ b3
  have hic : i < cond.length := by omega
  have hih : i < (sample.draw (clamp_k k yhatobs.length) yhatmis.length).length := by omega
  have e1 := c4 i yhatmis[i] cond[i]
    (sample.draw (clamp_k k yhatobs.length) yhatmis.length)[i]
    (List.getElem?_eq_getElem _) (List.getElem?_eq_getElem _) (List.getElem?_eq_getElem _)
  have e2 := d4 i yhatmis[i] cond[i]
    (sample.draw (clamp_k k yhatobs.length) yhatmis.length)[i]
    (by rw [← hval]; exact List.getElem?_eq_getElem _)
    (by rw [← hcond]; exact List.getElem?_eq_getElem _)
    (by rw [← hrank]; exact List.getElem?_eq_getElem _)
  simp only [List.getElem?_map]
  rw [← e1, ← e2]

/-- Witness of C9: a call with two targets and a call with only the first of
them agree on the first entry. -/
theorem per_target_independence_witness :
    matchindex_dev (fixed_sample [2, 1] [1, 2]) [0, 10] [1, 7] 2 [99, 1] [1, 2] = some [2, 2] ∧
    matchindex_dev (fixed_sample [2, 1] [1]) [0, 10] [1] 1 [99] [1, 2] = some [2] ∧
    ([2, 2] : List ℕ)[0]? = ([2] : List ℕ)[0]? :=
  ⟨by decide!, by decide!,
    per_target_independence (fixed_sample [2, 1] [1, 2]) (fixed_sample [2, 1] [1]) [0, 10] [1, 2]
      [1, 7] [1] [99, 1] [99] 2 1 [2, 2] [2] 0 rfl (by decide!) (by decide!) (by decide)
      rfl rfl rfl⟩

/-- C10 as stated fails: there is no length check.  A `cond` longer than
`yhatmis`, or a `ytrue` longer than `yhatobs`, is accepted and a result is
returned. -/
theorem longer_cond_or_ytrue_is_accepted :
    matchindex_dev (fixed_sample [1, 2] [1]) [0, 10] [1] 1 [99, 98] [1, 2] = some [1] ∧
    matchindex_dev (fixed_sample [1, 2] [1]) [0, 10] [1] 1 [99] [1, 2, 3] = some [1] := by
  decide!

/-- C10 amended.  With at least one donor, a call whose `cond` is shorter than
`yhatmis`, or whose `ytrue` is shorter than `yhatobs` while there is a target,
aborts on the out-of-range read and returns no result; a call whose `cond` and
`ytrue` are at least as long as `yhatmis` and `yhatobs` returns one entry per
target; and the call depends on `cond` and `ytrue` only through their first
`nmis` and `nobs` entries, so surplus entries are not used. -/
theorem length_mismatch (sample : Sample) (yhatobs yhatmis : List ℚ) (k : ℤ)
    (cond ytrue : List ℚ)
    (hs : IsShuffle (sample.shuffle yhatobs.length) yhatobs.length)
    (hh : (sample.draw (clamp_k k yhatobs.length) yhatmis.length).length = yhatmis.length) :
    (cond.length < yhatmis.length →
      matchindex_dev sample yhatobs yhatmis k cond ytrue = none) ∧
    (ytrue.length < yhatobs.length → 0 < yhatmis.length →
      matchindex_dev sample yhatobs yhatmis k cond ytrue = none) ∧
    (1 ≤ yhatobs.length → yhatmis.length ≤ cond.length → yhatobs.length ≤ ytrue.length →
      ∃ res, matchindex_dev sample yhatobs yhatmis k cond ytrue = some res ∧
        res.length = yhatmis.length) ∧
    (∀ cond' ytrue' : List ℚ, cond'.take yhatmis.length = cond.take yhatmis.length →
      ytrue'.take yhatobs.length = ytrue.take yhatobs.length →
      matchindex_dev sample yhatobs yhatmis k cond' ytrue' =
        matchindex_dev sample yhatobs yhatmis k cond ytrue) := by
  obtain ⟨yshuf, ysort, hl1, hl2, -, -, heq⟩ :=
    matchindex_dev_eq sample yhatobs yhatmis k cond ytrue hs
  refine ⟨?_, ?_, ?_, ?_⟩
  · intro hlt
    rw [heq, targets_eq_none_of_short _ _ _ _ _ _ hlt]
    rfl
  · intro hlt hpos
    have hmem : ytrue.length ∈ sort_index yshuf := by
      rw [(sort_index_perm yshuf).mem_iff, List.mem_range]
      omega
    rw [heq, targets_eq_none_of_index _ _ _ _ _ _ hpos ytrue.length hmem (le_refl _)]
    rfl
  · intro _ h1 h2
    obtain ⟨res, hres, hlen, -⟩ := matchindex_dev_isSome sample yhatobs yhatmis k cond ytrue hs
      (by omega) h1 h2
    exact ⟨res, hres, hlen⟩
  · intro cond' ytrue' h1 h2
    rw [← matchindex_dev_take sample yhatobs yhatmis k cond' ytrue' hs,
      ← matchindex_dev_take sample yhatobs yhatmis k cond ytrue hs, h1, h2]

/-- Witness of the amended C10: a short `cond`, a short `ytrue`, and a call
with surplus entries that returns what the call without them returns. -/
theorem length_mismatch_witness :
    IsShuffle [1, 2] 2 ∧
    matchindex_dev (fixed_sample [1, 2] [1, 1]) [0, 10] [1, 2] 1 [99] [1, 2] = none ∧
    matchindex_dev (fixed_sample [1, 2] [1, 1]) [0, 10] [1, 2] 1 [99, 98] [1] = none ∧
    matchindex_dev (fixed_sample [1, 2] [1, 1]) [0, 10] [1, 2] 1 [99, 98, 1, 2] [1, 2, 1, 2] =
      matchindex_dev (fixed_sample [1, 2] [1, 1]) [0, 10] [1, 2] 1 [99, 98] [1, 2] :=
  ⟨by decide,
   (length_mismatch (fixed_sample [1, 2] [1, 1]) [0, 10] [1, 2] 1 [99] [1, 2]
      (by decide) rfl).1 (by decide),
   (length_mismatch (fixed_sample [1, 2] [1, 1]) [0, 10] [1, 2] 1 [99, 98] [1]
      (by decide) rfl).2.1 (by decide) (by decide),
   (length_mismatch (fixed_sample [1, 2] [1, 1]) [0, 10] [1, 2] 1 [99, 98] [1, 2]
      (by decide) rfl).2.2.2 [99, 98, 1, 2] [1, 2, 1, 2] (by decide!) (by decide!)⟩

/-- C11 (index mapping through the shuffle) fails on the code.  With donors
`[0, 10]` and the shuffle `2, 1` the code has `id = [1, 0]` and
`ysort = [0, 10]`, but `yhatobs(id) = [10, 0]`: `id` holds positions in the
shuffled vector `yshuf` and is not composed with `ishuf`. -/
theorem sort_order_not_composed_with_shuffle :
    sorted_donors (fixed_sample [2, 1] []) [0, 10] = some ([1, 0], [0, 10]) ∧
    elem [(0 : ℚ), 10] [1, 0] = some [10, 0] ∧
    elem [(0 : ℚ), 10] [1, 0] ≠ some [0, 10] := by
  decide!

/-- C12 as stated fails on the code, which compares rounded differences.  With
`yuse = [2^-60, 2]`, `val = 1` and rank `1` the computed left distance
`1 - 2^-60` rounds to `1`, the test `1 < 1` fails and the right candidate
(position `1`) is recorded although position `0` is strictly closer: one
position is strictly closer, which is not fewer than `min(h, n) = 1`. -/
theorem hth_nearest_fails_under_rounding :
    fl (1 - 1 / 1152921504606846976) = 1 ∧
    expand [1 / 1152921504606846976, 2] [0, 1] 1 1
      ((lower_bound [1 / 1152921504606846976, 2] 1 : ℤ) - 1)
      (lower_bound [1 / 1152921504606846976, 2] 1) = some ⟨1, 0, 2, 0⟩ ∧
    closer_positions [1 / 1152921504606846976, 2] 1 1 = 1 ∧
    ¬ closer_positions [1 / 1152921504606846976, 2] 1 1 <
      min 1 [(1 / 1152921504606846976 : ℚ), 2].length := by
  decide!

/-- C12 amended.  On an ascending `yuse` of `n >= 1` values with rank `h >= 1`
the search returns; the index it records belongs to a position `p` next to a
cursor such that fewer than `min(h, n)` positions have a strictly smaller
computed distance to `val` and at least `min(h, n)` positions have a computed
distance that is at most that of `p`; and the candidate recorded after
`h' <= h` steps has a computed distance at most that of the one recorded after
`h` steps (candidates are visited in non-decreasing order of computed
distance).  The computed distance is the absolute difference rounded to
double. -/
theorem hth_nearest (yuse : List ℚ) (iduse : List ℕ) (val : ℚ) (h : ℕ)
    (hs : yuse.Sorted (fun a b => a ≤ b)) (hlen : iduse.length = yuse.length)
    (hn : 1 ≤ yuse.length) (hh : 1 ≤ h) :
    ∃ (s : Search) (p : ℕ),
      expand yuse iduse val h ((lower_bound yuse val : ℤ) - 1) (lower_bound yuse val) = some s ∧
      p < yuse.length ∧ iduse[p]? = some s.idx ∧ ((p : ℤ) = s.l + 1 ∨ p + 1 = s.r) ∧
      closer_computed yuse val p < min h yuse.length ∧
      min h yuse.length ≤ within_computed yuse val p ∧
      ∀ h' : ℕ, 1 ≤ h' → h' ≤ h →
        ∃ (s' : Search) (p' : ℕ),
          expand yuse iduse val h' ((lower_bound yuse val : ℤ) - 1) (lower_bound yuse val) =
            some s' ∧
          p' < yuse.length ∧ iduse[p']? = some s'.idx ∧ ((p' : ℤ) = s'.l + 1 ∨ p' + 1 = s'.r) ∧
          computed_dist yuse val p' ≤ computed_dist yuse val p := by
  obtain ⟨s, p, a1, -, -, -, a5, -, a7, a8, a9, -, -, a12, a13⟩ :=
    search_rank yuse iduse val h hs hlen hn hh
  refine ⟨s, p, a1, by omega, a9, a8, a12, a13, ?_⟩
  intro h' h1 h2
  obtain ⟨s', p', b1, -, -, -, b5, -, b7, b8, b9, -, -, b12, -⟩ :=
    search_rank yuse iduse val h' hs hlen hn h1
  refine ⟨s', p', b1, by omega, b9, b8, ?_⟩
  by_contra hlt
  have := within_le_closer yuse val p p' (not_le.mp hlt)
  have hmin : min h' yuse.length ≤ min h yuse.length := min_le_min h2 (le_refl _)
  omega

/-- Witness of the amended C12: four sorted candidates, target `4`, rank `2`. -/
theorem hth_nearest_witness :
    ([(0 : ℚ), 3, 5, 9].Sorted (fun a b => a ≤ b) ∧ 1 ≤ [(0 : ℚ), 3, 5, 9].length) ∧
    ∃ (s : Search) (p : ℕ),
      expand [0, 3, 5, 9] [7, 8, 6, 5] 4 2
        ((lower_bound [0, 3, 5, 9] 4 : ℤ) - 1) (lower_bound [0, 3, 5, 9] 4) = some s ∧
      p < [(0 : ℚ), 3, 5, 9].length ∧ [7, 8, 6, 5][p]? = some s.idx ∧
      closer_computed [0, 3, 5, 9] 4 p < min 2 [(0 : ℚ), 3, 5, 9].length :=
  ⟨⟨by decide!, by decide⟩,
    match hth_nearest [0, 3, 5, 9] [7, 8, 6, 5] 4 2 (by decide!) rfl (by decide) (by decide) with
    | ⟨s, p, h1, h2, h3, _, h5, _, _⟩ => ⟨s, p, h1, h2, h3, h5⟩⟩

/-- C13 (tie goes right).  At a step of the first loop with both cursors in
range the left candidate is taken exactly when its computed distance is
strictly below the computed distance of the right one, and then it is strictly
closer; when the left candidate is not strictly closer, in particular on a
tie, the right candidate is recorded and `r` advances.  An exact match at the
lower-bound position is taken on the first step. -/
theorem tie_goes_right (yuse : List ℚ) (iduse : List ℕ) (val : ℚ)
    (hlen : iduse.length = yuse.length) :
    (∀ (n idx : ℕ) (l : ℤ) (r : ℕ), 0 ≤ l → l < yuse.length → r < yuse.length →
      (fl (val - yuse.getD l.toNat 0) < fl (yuse.getD r 0 - val) →
        val - yuse.getD l.toNat 0 < yuse.getD r 0 - val ∧
        expand_both yuse iduse val (n + 1) idx l r =
          expand_both yuse iduse val n (iduse.getD l.toNat 0) (l - 1) r) ∧
      (¬ fl (val - yuse.getD l.toNat 0) < fl (yuse.getD r 0 - val) →
        expand_both yuse iduse val (n + 1) idx l r =
          expand_both yuse iduse val n (iduse.getD r 0) l (r + 1)) ∧
      (¬ val - yuse.getD l.toNat 0 < yuse.getD r 0 - val →
        expand_both yuse iduse val (n + 1) idx l r =
          expand_both yuse iduse val n (iduse.getD r 0) l (r + 1)) ∧
      (val - yuse.getD l.toNat 0 = yuse.getD r 0 - val →
        expand_both yuse iduse val 1 idx l r = some ⟨iduse.getD r 0, l, r + 1, 0⟩)) ∧
    (lower_bound yuse val < yuse.length → yuse.getD (lower_bound yuse val) 0 = val →
      expand yuse iduse val 1 ((lower_bound yuse val : ℤ) - 1) (lower_bound yuse val) =
        some ⟨iduse.getD (lower_bound yuse val) 0, (lower_bound yuse val : ℤ) - 1,
          lower_bound yuse val + 1, 0⟩ ∧
      ∀ h : ℕ,
        expand yuse iduse val (h + 1) ((lower_bound yuse val : ℤ) - 1) (lower_bound yuse val) =
          expand_from yuse iduse val h (iduse.getD (lower_bound yuse val) 0)
            ((lower_bound yuse val : ℤ) - 1) (lower_bound yuse val + 1)) := by
  have hstep : ∀ (n idx : ℕ) (l : ℤ) (r : ℕ), 0 ≤ l → l < yuse.length → r < yuse.length →
      expand_both yuse iduse val (n + 1) idx l r =
        if fl (val - yuse.getD l.toNat 0) < fl (yuse.getD r 0 - val) then
          expand_both yuse iduse val n (iduse.getD l.toNat 0) (l - 1) r
        else expand_both yuse iduse val n (iduse.getD r 0) l (r + 1) := by
    intro n idx l r h0 hl hr
    conv_lhs => unfold expand_both
    rw [if_pos ⟨h0, hr⟩, at_int_eq_getD yuse l 0 h0 hl, getElem?_eq_getD yuse r 0 hr,
      at_int_eq_getD iduse l 0 h0 (by omega), getElem?_eq_getD iduse r 0 (by omega)]
  have hfirst : ∀ h : ℕ, lower_bound yuse val < yuse.length →
      yuse.getD (lower_bound yuse val) 0 = val →
      expand yuse iduse val (h + 1) ((lower_bound yuse val : ℤ) - 1) (lower_bound yuse val) =
        expand_from yuse iduse val h (iduse.getD (lower_bound yuse val) 0)
          ((lower_bound yuse val : ℤ) - 1) (lower_bound yuse val + 1) := by
    intro h hr hval
    have e : expand yuse iduse val (h + 1) ((lower_bound yuse val : ℤ) - 1)
        (lower_bound yuse val) = expand_from yuse iduse val (h + 1) 0
        ((lower_bound yuse val : ℤ) - 1) (lower_bound yuse val) := rfl
    rw [e, expand_from_succ yuse iduse val hlen h 0 _ _ (by omega) (Or.inr hr),
      advance_first_exact yuse iduse val 0 hr hval]
  refine ⟨?_, ?_⟩
  · intro n idx l r h0 hl hr
    have hexact : ¬ val - yuse.getD l.toNat 0 < yuse.getD r 0 - val →
        ¬ fl (val - yuse.getD l.toNat 0) < fl (yuse.getD r 0 - val) := by
      intro hc
      exact not_lt.mpr (fl_monotone _ _ (not_lt.mp hc))
    refine ⟨?_, ?_, ?_, ?_⟩
    · intro hc
      refine ⟨?_, by rw [hstep n idx l r h0 hl hr, if_pos hc]⟩
      by_contra hnot
      exact hexact hnot hc
    · intro hc; rw [hstep n idx l r h0 hl hr, if_neg hc]
    · intro hc; rw [hstep n idx l r h0 hl hr, if_neg (hexact hc)]
    · intro hc
      rw [hstep 0 idx l r h0 hl hr, if_neg (by rw [hc]; exact lt_irrefl _)]
      rfl
  · intro hr hval
    refine ⟨?_, fun h => hfirst h hr hval⟩
    rw [hfirst 0 hr hval]
    simp [expand_from, expand_both, expand_left, expand_right]

/-- Witness of C13: the target `4` lies midway between `3` and `5`; the right
candidate is recorded. -/
theorem tie_goes_right_witness :
    (4 : ℚ) - [(0 : ℚ), 3, 5, 9].getD 1 0 = [(0 : ℚ), 3, 5, 9].getD 2 0 - 4 ∧
    expand_both [0, 3, 5, 9] [7, 8, 6, 5] 4 1 0 1 2 = some ⟨6, 1, 3, 0⟩ :=
  ⟨by decide!,
    ((tie_goes_right [0, 3, 5, 9] [7, 8, 6, 5] 4 rfl).1 0 0 1 2 (by decide) (by decide)
      (by decide)).2.2.2 (by decide!)⟩

/-- C14 as stated fails on the code, which compares rounded differences.  With
`yuse = [2^-60, 2]`, `val = 1` and rank `2` the search takes position `1` first
and ends on position `0`, whose distance `1 - 2^-60` is below the distance `1`
of position `1`: the recorded candidate is not one of maximum distance. -/
theorem exhaustion_fails_under_rounding :
    expand [1 / 1152921504606846976, 2] [0, 1] 1 2
      ((lower_bound [1 / 1152921504606846976, 2] 1 : ℤ) - 1)
      (lower_bound [1 / 1152921504606846976, 2] 1) = some ⟨0, -1, 2, 0⟩ ∧
    dist_to [1 / 1152921504606846976, 2] 1 0 < dist_to [1 / 1152921504606846976, 2] 1 1 := by
  decide!

/-- C14 amended.  On an ascending `yuse` of `n >= 1` values with rank `h >= n`
the search takes exactly `n` steps, both sides end exhausted, and the recorded
index belongs to position `0` or `n - 1`, a position of maximum computed
distance to `val` (the absolute difference rounded to double). -/
theorem exhaustion (yuse : List ℚ) (iduse : List ℕ) (val : ℚ) (h : ℕ)
    (hs : yuse.Sorted (fun a b => a ≤ b)) (hlen : iduse.length = yuse.length)
    (hn : 1 ≤ yuse.length) (hh : yuse.length ≤ h) :
    ∃ (s : Search) (p : ℕ),
      expand yuse iduse val h ((lower_bound yuse val : ℤ) - 1) (lower_bound yuse val) = some s ∧
      h - s.todo = yuse.length ∧ s.l = -1 ∧ s.r = yuse.length ∧
      (p = 0 ∨ p = yuse.length - 1) ∧ iduse[p]? = some s.idx ∧
      ∀ q : ℕ, q < yuse.length → computed_dist yuse val q ≤ computed_dist yuse val p := by
  obtain ⟨s, p, a1, a2, a3, a4, a5, a6, a7, a8, a9, a10, -, -, -⟩ :=
    search_rank yuse iduse val h hs hlen hn (by omega)
  rw [min_eq_right hh] at a3
  have hl : s.l = -1 := by omega
  have hr : s.r = yuse.length := by omega
  refine ⟨s, p, a1, by omega, hl, hr, by omega, a9, ?_⟩
  intro q hq
  exact a10 q (by omega) (by omega)

/-- Witness of the amended C14: four candidates, rank `6`. -/
theorem exhaustion_witness :
    ([(0 : ℚ), 3, 5, 9].Sorted (fun a b => a ≤ b) ∧ [(0 : ℚ), 3, 5, 9].length ≤ 6) ∧
    ∃ (s : Search) (p : ℕ),
      expand [0, 3, 5, 9] [7, 8, 6, 5] 4 6
        ((lower_bound [0, 3, 5, 9] 4 : ℤ) - 1) (lower_bound [0, 3, 5, 9] 4) = some s ∧
      6 - s.todo = [(0 : ℚ), 3, 5, 9].length ∧ (p = 0 ∨ p = [(0 : ℚ), 3, 5, 9].length - 1) ∧
      [7, 8, 6, 5][p]? = some s.idx :=
  ⟨⟨by decide!, by decide⟩,
    match exhaustion [0, 3, 5, 9] [7, 8, 6, 5] 4 6 (by decide!) rfl (by decide) (by decide) with
    | ⟨s, p, h1, h2, _, _, h5, h6, _⟩ => ⟨s, p, h1, h2, h5, h6⟩⟩

/-- C15 as stated fails on the code, which compares rounded differences.  With
donors `[2^-60, 2]`, the identity shuffle, nothing excluded, target `1` and
`k = 1`, rank `1` records donor position `1` (value `2`) although position `0`
is strictly closer: the candidate of rank `1` is not among the `1` nearest. -/
theorem k_nearest_fails_under_rounding :
    sorted_donors (fixed_sample [1, 2] []) [1 / 1152921504606846976, 2] =
      some ([0, 1], [1 / 1152921504606846976, 2]) ∧
    usable [1 / 1152921504606846976, 2] [0, 1] [7, 8] 99 =
      some ([1 / 1152921504606846976, 2], [0, 1]) ∧
    match_one [1 / 1152921504606846976, 2] [0, 1] [7, 8] 1 99 1 = some 1 ∧
    ([0, 1] : List ℕ)[1]? = some 1 ∧
    ¬ closer_positions [1 / 1152921504606846976, 2] 1 1 < 1 := by
  decide!

/-- C15 amended.  For the sorted donors of a call and the usable subset of one
exclusion value, different ranks in `[1, nuse]` record different donor indices;
and for `h <= k <= nuse` the candidate recorded for rank `h` has fewer than `k`
usable positions with a strictly smaller computed distance to `val` (the
absolute difference rounded to double) and is the candidate of exactly one
rank in `[1, k]`, so that a uniform rank in `[1, k]` selects each of these `k`
candidates with the same probability. -/
theorem rank_selects_distinct_candidates (sample : Sample) (yhatobs ytrue : List ℚ)
    (val c : ℚ) (id : List ℕ) (ysort yuse : List ℚ) (iduse : List ℕ)
    (hd : sorted_donors sample yhatobs = some (id, ysort))
    (hu : usable ysort id ytrue c = some (yuse, iduse)) :
    (∀ h h' : ℕ, 1 ≤ h → h ≤ yuse.length → 1 ≤ h' → h' ≤ yuse.length → h ≠ h' →
      ∃ x x' : ℕ, match_one ysort id ytrue val c h = some x ∧
        match_one ysort id ytrue val c h' = some x' ∧ x ≠ x') ∧
    (∀ k h : ℕ, 1 ≤ h → h ≤ k → k ≤ yuse.length →
      ∃ x p : ℕ, match_one ysort id ytrue val c h = some x ∧ p < yuse.length ∧
        iduse[p]? = some x ∧ closer_computed yuse val p < k ∧
        ((Finset.Icc 1 k).filter
          (fun h' => match_one ysort id ytrue val c h' = some x)).card = 1) := by
  obtain ⟨yshuf, -, -, -, d1, d2, d3⟩ := sorted_donors_eq_some sample yhatobs id ysort hd
  obtain ⟨u1, u2, u3⟩ := usable_sorted ysort id ytrue c yuse iduse d1 d3 d2 hu
  have hinj := match_one_distinct ysort id ytrue val c yuse iduse d1 d3 d2 hu
  refine ⟨hinj, ?_⟩
  intro k h h1 h2 h3
  obtain ⟨s, p, a1, -, -, -, a5, -, a7, -, a9, -, -, a12, -⟩ :=
    search_rank yuse iduse val h u1 u3 (by omega) h1
  have hm : match_one ysort id ytrue val c h = some s.idx := by
    rw [match_one_eq ysort id ytrue val c h yuse iduse hu, a1]; rfl
  refine ⟨s.idx, p, hm, by omega, a9, ?_, ?_⟩
  · have : min h yuse.length ≤ k := le_trans (min_le_left _ _) h2
    omega
  · rw [Finset.card_eq_one]
    refine ⟨h, ?_⟩
    ext h'
    simp only [Finset.mem_filter, Finset.mem_Icc, Finset.mem_singleton]
    constructor
    · rintro ⟨⟨b1, b2⟩, b3⟩
      by_contra hne
      obtain ⟨x, x', e1, e2, e3⟩ := hinj h h' h1 (by omega) b1 (by omega) (fun hc => hne hc.symm)
      rw [hm] at e1
      rw [b3] at e2
      simp only [Option.some.injEq] at e1 e2
      exact e3 (by rw [← e1, ← e2])
    · rintro rfl
      exact ⟨⟨h1, h2⟩, hm⟩

/-- Witness of the amended C15: three donors under the shuffle `2, 3, 1`,
nothing excluded; ranks `1` and `2` record different donors. -/
theorem rank_selects_distinct_candidates_witness :
    (sorted_donors (fixed_sample [2, 3, 1] []) [0, 10, 20] = some ([2, 0, 1], [0, 10, 20]) ∧
      usable [0, 10, 20] [2, 0, 1] [1, 2, 3] 99 = some ([0, 10, 20], [2, 0, 1])) ∧
    ∃ x x' : ℕ, match_one [0, 10, 20] [2, 0, 1] [1, 2, 3] 9 99 1 = some x ∧
      match_one [0, 10, 20] [2, 0, 1] [1, 2, 3] 9 99 2 = some x' ∧ x ≠ x' :=
  ⟨⟨by decide!, by decide!⟩,
    (rank_selects_distinct_candidates (fixed_sample [2, 3, 1] []) [0, 10, 20] [1, 2, 3] 9 99
      [2, 0, 1] [0, 10, 20] [0, 10, 20] [2, 0, 1] (by decide!) (by decide!)).1 1 2
      (by decide) (by decide) (by decide) (by decide) (by decide)⟩

/-- C16 (filtering keeps order).  For the sorted donors of a call and any
exclusion value, `yuse` and `iduse` are read from `ysort` and `id` at the same
strictly increasing positions; `yuse` is a subsequence of `ysort`, is sorted
ascending, and the pairs `(yuse[j], iduse[j])` form a subsequence of the pairs
`(ysort[j], id[j])`. -/
theorem filtering_keeps_order (sample : Sample) (yhatobs ytrue : List ℚ) (c : ℚ)
    (id : List ℕ) (ysort yuse : List ℚ) (iduse : List ℕ)
    (hd : sorted_donors sample yhatobs = some (id, ysort))
    (hu : usable ysort id ytrue c = some (yuse, iduse)) :
    ysort.Sorted (fun a b => a ≤ b) ∧ yuse.Sublist ysort ∧ yuse.Sorted (fun a b => a ≤ b) ∧
    iduse.length = yuse.length ∧ (yuse.zip iduse).Sublist (ysort.zip id) ∧
    ∃ keep : List ℕ, keep.Sorted (fun a b => a < b) ∧ elem ysort keep = some yuse ∧
      elem id keep = some iduse := by
  obtain ⟨yshuf, -, -, -, d1, d2, d3⟩ := sorted_donors_eq_some sample yhatobs id ysort hd
  obtain ⟨yt, -, hl, rfl, rfl⟩ := usable_eq_masked ysort id ytrue c yuse iduse d1 hu
  refine ⟨d3, masked_sublist _ _, d3.sublist (masked_sublist _ _),
    masked_length _ _ _ d1.symm, ?_, ?_⟩
  · rw [← masked_zip]
    exact masked_sublist _ _
  · refine ⟨find (yt.map (fun y => decide (y ≠ ((to_int c : ℤ) : ℚ)))), find_from_sorted _ 0,
      elem_find ysort _ (by simp [hl, d1]), elem_find id _ (by simp [hl])⟩

/-- Witness of C16: three donors under the shuffle `2, 3, 1`, exclusion value
`1`. -/
theorem filtering_keeps_order_witness :
    (sorted_donors (fixed_sample [2, 3, 1] []) [0, 10, 20] = some ([2, 0, 1], [0, 10, 20]) ∧
      usable [0, 10, 20] [2, 0, 1] [1, 2, 3] 1 = some ([0, 20], [2, 1])) ∧
    [(0 : ℚ), 20].Sublist [0, 10, 20] ∧ [(0 : ℚ), 20].Sorted (fun a b => a ≤ b) ∧
    ([(0 : ℚ), 20].zip [2, 1]).Sublist ([(0 : ℚ), 10, 20].zip [2, 0, 1]) :=
  ⟨⟨by decide!, by decide!⟩,
    match filtering_keeps_order (fixed_sample [2, 3, 1] []) [0, 10, 20] [1, 2, 3] 1
      [2, 0, 1] [0, 10, 20] [0, 20] [2, 1] (by decide!) (by decide!) with
    | ⟨_, h2, h3, _, h5, _⟩ => ⟨h2, h3, h5⟩⟩

/-- C17 (empty usable pool).  When the filter keeps no donor for a target,
the lower bound is `r = 0` with `l = -1`, each of the three loops returns at
once with the counter untouched and without reading `yuse` or `iduse`, the
value left in `idx(i)` is `0` and the entry returned for the target is `1`,
whatever the rank. -/
theorem empty_usable_pool (ysort : List ℚ) (id : List ℕ) (ytrue : List ℚ) (val c : ℚ)
    (hi : ℕ) (iduse : List ℕ) (hu : usable ysort id ytrue c = some ([], iduse)) :
    iduse = [] ∧ lower_bound [] val = 0 ∧
    expand_both [] iduse val hi 0 (-1) 0 = some ⟨0, -1, 0, hi⟩ ∧
    expand_left iduse hi 0 (-1) 0 = some ⟨0, -1, 0, hi⟩ ∧
    expand_right 0 iduse hi 0 (-1) 0 = some ⟨0, -1, 0, hi⟩ ∧
    match_one ysort id ytrue val c hi = some 0 ∧
    ∀ (sample : Sample) (yhatobs yhatmis : List ℚ) (k : ℤ) (cond : List ℚ) (res : List ℕ)
      (i : ℕ), sorted_donors sample yhatobs = some (id, ysort) →
      matchindex_dev sample yhatobs yhatmis k cond ytrue = some res →
      yhatmis[i]? = some val → cond[i]? = some c →
      (sample.draw (clamp_k k yhatobs.length) yhatmis.length)[i]? = some hi →
      res[i]? = some 1 := by
  have hlen := (usable_eq_some _ _ _ _ _ _ hu).1
  have hid : iduse = [] := List.length_eq_zero.mp (by simpa using hlen)
  have e1 : expand_both [] iduse val hi 0 (-1) 0 = some ⟨0, -1, 0, hi⟩ :=
    expand_both_stop [] iduse val hi 0 (-1) 0 (by simp)
  have e2 : expand_left iduse hi 0 (-1) 0 = some ⟨0, -1, 0, hi⟩ :=
    expand_left_stop iduse hi 0 (-1) 0 (by decide)
  have e3 : expand_right 0 iduse hi 0 (-1) 0 = some ⟨0, -1, 0, hi⟩ :=
    expand_right_stop 0 iduse hi 0 (-1) 0 (by decide)
  have hm : match_one ysort id ytrue val c hi = some 0 := by
    rw [match_one_eq ysort id ytrue val c hi [] iduse hu]
    have hlb : lower_bound [] val = 0 := rfl
    rw [hlb]
    have hx : expand [] iduse val hi (((0 : ℕ) : ℤ) - 1) 0 = some ⟨0, -1, 0, hi⟩ := by
      have hcast : (((0 : ℕ) : ℤ) - 1) = -1 := by decide
      rw [hcast]
      unfold expand
      rw [e1]
      simp only
      rw [e2]
      simp only [List.length_nil]
      rw [e3]
    rw [hx]
    rfl
  refine ⟨hid, rfl, e1, e2, e3, hm, ?_⟩
  intro sample yhatobs yhatmis k cond res i hd hres hv hc hh
  obtain ⟨id', ysort', idx, d1, d2, rfl⟩ := matchindex_dev_sorted_donors _ _ _ _ _ _ _ hres
  rw [hd, Option.some.injEq, Prod.mk.injEq] at d1
  obtain ⟨rfl, rfl⟩ := d1
  obtain ⟨-, -, -, t4⟩ := targets_eq_some _ _ _ _ _ _ _ d2
  have := t4 i val c hi hv hc hh
  rw [hm] at this
  rw [List.getElem?_map, ← this]
  rfl

/-- Witness of C17: both donors carry the excluded true value `1`. -/
theorem empty_usable_pool_witness :
    usable [0, 10] [0, 1] [1, 1] 1 = some ([], []) ∧
    match_one [0, 10] [0, 1] [1, 1] 4 1 3 = some 0 :=
  ⟨by decide!, (empty_usable_pool [0, 10] [0, 1] [1, 1] 4 1 3 [] (by decide!)).2.2.2.2.2.1⟩

/-- C18 (the exclusion value is truncated to an integer).  `int ex = cond(i)`
is the integer part of `cond(i)` (truncation toward zero: the floor of a
non-negative value, the ceiling of a negative one) whenever that integer part
is an `int`; the filter keeps exactly the sorted positions whose true value
differs from `ex`; and two exclusion values with the same integer part give the
same `ex`, the same usable subset and, in two calls on the same donors,
shuffle, targets and ranks, the same entry `i`. -/
theorem exclusion_truncated (c c' : ℚ) (htr : trunc c = trunc c') :
    (trunc c = if 0 ≤ c then ⌊c⌋ else ⌈c⌉) ∧
    (-2147483648 ≤ trunc c ∧ trunc c ≤ 2147483647 → to_int c = trunc c) ∧
    to_int c = to_int c' ∧
    (∀ (ysort : List ℚ) (id : List ℕ) (ytrue yuse : List ℚ) (iduse : List ℕ),
      ysort.length = id.length → usable ysort id ytrue c = some (yuse, iduse) →
      (∃ yt, elem ytrue id = some yt ∧
        yuse = masked ysort (yt.map (fun y => decide (y ≠ ((to_int c : ℤ) : ℚ)))) ∧
        iduse = masked id (yt.map (fun y => decide (y ≠ ((to_int c : ℤ) : ℚ))))) ∧
      (∀ j ∈ iduse, ∃ y, ytrue[j]? = some y ∧ y ≠ ((to_int c : ℤ) : ℚ)) ∧
      (∀ (q j : ℕ) (y : ℚ), id[q]? = some j → ytrue[j]? = some y →
        y ≠ ((to_int c : ℤ) : ℚ) → j ∈ iduse) ∧
      (id.Nodup → ∀ (q j : ℕ), id[q]? = some j →
        ytrue[j]? = some ((to_int c : ℤ) : ℚ) → j ∉ iduse)) ∧
    (∀ (ysort : List ℚ) (id : List ℕ) (ytrue : List ℚ),
      usable ysort id ytrue c = usable ysort id ytrue c') ∧
    (∀ (sample : Sample) (yhatobs yhatmis : List ℚ) (k : ℤ) (cond cond' ytrue : List ℚ)
      (res res' : List ℕ) (i : ℕ),
      matchindex_dev sample yhatobs yhatmis k cond ytrue = some res →
      matchindex_dev sample yhatobs yhatmis k cond' ytrue = some res' →
      i < yhatmis.length → cond[i]? = some c → cond'[i]? = some c' →
      res[i]? = res'[i]?) := by
  have hti : to_int c = to_int c' := to_int_of_trunc_eq c c' htr
  have hus : ∀ (ysort : List ℚ) (id : List ℕ) (ytrue : List ℚ),
      usable ysort id ytrue c = usable ysort id ytrue c' := by
    intro ysort id ytrue
    simp only [usable, hti]
  refine ⟨trunc_eq c, to_int_of_range c, hti, ?_, hus, ?_⟩
  · intro ysort id ytrue yuse iduse hlen hu
    obtain ⟨yt, m1, -, m3, m4⟩ := usable_eq_masked ysort id ytrue c yuse iduse hlen hu
    obtain ⟨k1, k2, k3⟩ := usable_kept ysort id ytrue c yuse iduse hlen hu
    exact ⟨⟨yt, m1, m3, m4⟩, k1, k2, k3⟩
  · intro sample yhatobs yhatmis k cond cond' ytrue res res' i hres hres' hi hc hc'
    obtain ⟨id, ysort, idx, d1, d2, rfl⟩ := matchindex_dev_sorted_donors _ _ _ _ _ _ _ hres
    obtain ⟨id', ysort', idx', e1, e2, rfl⟩ := matchindex_dev_sorted_donors _ _ _ _ _ _ _ hres'
    rw [d1, Option.some.injEq, Prod.mk.injEq] at e1
    obtain ⟨rfl, rfl⟩ := e1
    obtain ⟨-, -, t3, t4⟩ := targets_eq_some _ _ _ _ _ _ _ d2
    obtain ⟨-, -, -, s4⟩ := targets_eq_some _ _ _ _ _ _ _ e2
    have hih : i < (sample.draw (clamp_k k yhatobs.length) yhatmis.length).length := by omega
    have a := t4 i yhatmis[i] c (sample.draw (clamp_k k yhatobs.length) yhatmis.length)[i]
      (List.getElem?_eq_getElem _) hc (List.getElem?_eq_getElem _)
    have b := s4 i yhatmis[i] c' (sample.draw (clamp_k k yhatobs.length) yhatmis.length)[i]
      (List.getElem?_eq_getElem _) hc' (List.getElem?_eq_getElem _)
    have hmm : match_one ysort id ytrue yhatmis[i] c
        (sample.draw (clamp_k k yhatobs.length) yhatmis.length)[i] =
        match_one ysort id ytrue yhatmis[i] c'
        (sample.draw (clamp_k k yhatobs.length) yhatmis.length)[i] := by
      simp only [match_one, hus]
    simp only [List.getElem?_map]
    rw [← a, ← b, hmm]

/-- Witness of C18: the exclusion values `5/2` and `2` have the integer part
`2`; the donor with true value `2` is dropped for both. -/
theorem exclusion_truncated_witness :
    trunc (5 / 2) = trunc 2 ∧ to_int (5 / 2) = 2 ∧
    usable [0, 1] [0, 1] [2, 3] (5 / 2) = some ([1], [1]) ∧
    usable [0, 1] [0, 1] [2, 3] (5 / 2) = usable [0, 1] [0, 1] [2, 3] 2 :=
  ⟨by decide!, by decide!, by decide!,
    (exclusion_truncated (5 / 2) 2 (by decide!)).2.2.2.2.1 [0, 1] [0, 1] [2, 3]⟩

/-- C19 (index validity for integer exclusion values) fails on the code.  The
exclusion value `3000000000` is an integer, the filter keeps both positions and
the rank is `1`, yet the call returns donor `1`, whose true value is the
excluded `3000000000`: `int ex = cond(i)` cannot hold that value (the
conversion delivers `INT_MIN`), so the donor is not filtered out. -/
theorem excluded_integer_beyond_int_returned :
    (3000000000 : ℚ).den = 1 ∧ to_int 3000000000 = -2147483648 ∧
    usable [0, 10] [0, 1] [3000000000, 5] 3000000000 = some ([0, 10], [0, 1]) ∧
    matchindex_dev (fixed_sample [1, 2] [1]) [0, 10] [1] 1 [3000000000] [3000000000, 5] =
      some [1] ∧
    donor_at [3000000000, 5] 1 = some 3000000000 := by
  decide!

end MatchIndex
